import Mathlib

/-!
Verification of the Menu Normalization & Bilingual Reconciliation Pipeline of
the grubtech Labs (Menu Studio Pro) frontend.

The TypeScript sources are shallowly embedded here:

* JavaScript strings are modelled as lists of characters (abbreviated below as
  a character list), so that trimming, prefix tests, substring search and
  first-occurrence replacement are ordinary list operations.
* JavaScript row objects are modelled as association lists from keys to
  values; property assignment overwrites the value in place (keeping the
  key's original position, as JavaScript objects and Maps do) and otherwise
  appends the key at the end, matching insertion-order enumeration.
* JavaScript values reaching the pipeline are strings, numbers, or NaN; a
  missing property behaves like the empty string wherever the sources guard
  accesses with truthiness checks, which they do everywhere relevant.
* Machine floating point only occurs through parseFloat on short decimal inputs;
  those produce dyadic or terminating decimals which are represented exactly
  by rationals.
-/

set_option maxHeartbeats 1000000

/-- Character-list model of a JavaScript string. -/
abbrev Str := List Char

/-- Whitespace characters removed by the JavaScript trim() (the subset that
can occur in spreadsheet headers and cells). -/
def isWsChar (c : Char) : Bool :=
  c == ' ' || c == '\t' || c == '\n' || c == '\r'

/-- Model of the JavaScript trimStart(). -/
def trimLeftStr (s : Str) : Str := s.dropWhile isWsChar

/-- Model of the JavaScript trimEnd(). -/
def trimRightStr (s : Str) : Str := (s.reverse.dropWhile isWsChar).reverse

/-- Model of the JavaScript trim(). -/
def jsTrim (s : Str) : Str := trimRightStr (trimLeftStr s)

/-- ASCII lower-casing of one character, as the JavaScript toLowerCase() acts
on the ASCII letters appearing in header names. -/
def lowerChar (c : Char) : Char :=
  if 65 ≤ c.toNat ∧ c.toNat ≤ 90 then Char.ofNat (c.toNat + 32) else c

/-- Model of the JavaScript toLowerCase() on header keys. -/
def jsToLower (s : Str) : Str := s.map lowerChar

/-- ASCII upper-casing of one character. -/
def upperChar (c : Char) : Char :=
  if 97 ≤ c.toNat ∧ c.toNat ≤ 122 then Char.ofNat (c.toNat - 32) else c

/-- Model of the JavaScript toUpperCase(). -/
def jsToUpper (s : Str) : Str := s.map upperChar

/-- Model of the JavaScript String.replace(pat, "") with a string pattern:
only the first occurrence of the pattern is removed. -/
def removeFirst (pat : Str) : Str → Str
  | [] => []
  | c :: rest =>
    if pat.isPrefixOf (c :: rest) then (c :: rest).drop pat.length
    else c :: removeFirst pat rest

/-- Decimal digit character. -/
def decDigit (d : Nat) : Char :=
  if d = 0 then '0' else if d = 1 then '1' else if d = 2 then '2'
  else if d = 3 then '3' else if d = 4 then '4' else if d = 5 then '5'
  else if d = 6 then '6' else if d = 7 then '7' else if d = 8 then '8' else '9'

/-- Fuel-driven most-significant-first decimal digit expansion. -/
def decDigitsFuel : Nat → Nat → Str
  | 0, _ => []
  | fuel + 1, n =>
    if n = 0 then [] else decDigitsFuel fuel (n / 10) ++ [decDigit (n % 10)]

/-- Decimal representation of a natural number, as produced by JavaScript
template interpolation of a nonnegative integer. -/
def natToStr (n : Nat) : Str :=
  if n = 0 then ['0'] else decDigitsFuel (n + 1) n

/-- JavaScript values flowing through the pipeline: strings, finite numbers
(exactly representable here as rationals), and NaN. -/
inductive JSVal where
  | vstr (s : Str)
  | vnum (q : ℚ)
  | vnan
  deriving DecidableEq

/-- JavaScript truthiness: empty string, 0 and NaN are falsy. -/
def JSVal.truthy : JSVal → Bool
  | JSVal.vstr s => !s.isEmpty
  | JSVal.vnum q => decide (q ≠ 0)
  | JSVal.vnan => false

/-- Decimal expansion of the fractional digits of a nonnegative rational,
with fuel; JavaScript numbers always have terminating decimal expansions of
bounded length, so 120 digits of fuel are never exhausted on values a
JavaScript program can hold. -/
def fracDigitsFuel : Nat → ℚ → Str
  | 0, _ => []
  | fuel + 1, q =>
    if q = 0 then []
    else
      let q10 := q * 10
      decDigit q10.floor.toNat :: fracDigitsFuel fuel (q10 - q10.floor)

/-- Decimal rendering of a rational, as JavaScript renders the numbers this
model can produce (integers and short terminating decimals). -/
def ratToStr (q : ℚ) : Str :=
  let a := |q|
  let ip := a.floor.toNat
  let fp := a - a.floor
  let core := if fp = 0 then natToStr ip else natToStr ip ++ '.' :: fracDigitsFuel 120 fp
  if q < 0 then '-' :: core else core

/-- Model of the JavaScript toString() coercion on pipeline values; NaN
renders as the string NaN. -/
def JSVal.toStr : JSVal → Str
  | JSVal.vstr s => s
  | JSVal.vnum q => ratToStr q
  | JSVal.vnan => [ 'N', 'a', 'N' ]

/-- Undefined and absent properties behave as the empty string at every
guarded access in the embedded sources. -/
def undefVal : JSVal := JSVal.vstr []

/-- Association-list model of a JavaScript row object. -/
abbrev Rec := List (Str × JSVal)

/-- Property read (first matching key, as on JavaScript objects whose keys
are unique). -/
def objGet : Rec → Str → Option JSVal
  | [], _ => none
  | p :: rest, k => if p.1 = k then some p.2 else objGet rest k

/-- Property read with the undefined-as-empty default (the sources always
guard such reads by truthiness or an explicit or-default). -/
def objGetD (r : Rec) (k : Str) : JSVal := (objGet r k).getD undefVal

/-- Property assignment: overwrite in place keeping the key's position, else
append at the end, exactly as JavaScript object insertion order behaves. -/
def objSet : Rec → Str → JSVal → Rec
  | [], k, v => [(k, v)]
  | p :: rest, k, v => if p.1 = k then (k, v) :: rest else p :: objSet rest k v

/-- Property deletion. -/
def objDel : Rec → Str → Rec
  | [], _ => []
  | p :: rest, k => if p.1 = k then objDel rest k else p :: objDel rest k

/-- Object.keys in insertion order. -/
def keysOf (r : Rec) : List Str := r.map (fun p => p.1)

/-- The JavaScript or-operator on values, selecting the first truthy one. -/
def jsOr (a b : JSVal) : JSVal := if a.truthy then a else b

theorem decDigit_inj {a b : Nat} (ha : a < 10) (hb : b < 10)
    (h : decDigit a = decDigit b) : a = b := by
  interval_cases a <;> interval_cases b <;> simp_all [decDigit]

theorem decDigitsFuel_congr : ∀ n f g, n ≤ f → n ≤ g →
    decDigitsFuel f n = decDigitsFuel g n := by
  intro n
  induction n using Nat.strong_induction_on with
  | _ n ih =>
    intro f g hf hg
    match f, g with
    | 0, 0 => rfl
    | 0, g + 1 =>
      interval_cases n
      simp [decDigitsFuel]
    | f + 1, 0 =>
      interval_cases n
      simp [decDigitsFuel]
    | f + 1, g + 1 =>
      by_cases hn : n = 0
      · simp [decDigitsFuel, hn]
      · have hlt : n / 10 < n := Nat.div_lt_self (Nat.pos_of_ne_zero hn) (by norm_num)
        have h1 : n / 10 ≤ f := by omega
        have h2 : n / 10 ≤ g := by omega
        simp only [decDigitsFuel, hn, if_false]
        rw [ih (n / 10) hlt f g h1 h2]

/-- Unfolding equation for the fuelled decimal expansion at its canonical
fuel. -/
theorem decDigits_eq (n : Nat) (hn : n ≠ 0) :
    decDigitsFuel (n + 1) n
      = decDigitsFuel (n / 10 + 1) (n / 10) ++ [decDigit (n % 10)] := by
  have hlt : n / 10 < n := Nat.div_lt_self (Nat.pos_of_ne_zero hn) (by norm_num)
  conv_lhs => rw [decDigitsFuel]
  rw [if_neg hn, decDigitsFuel_congr (n / 10) n (n / 10 + 1) (by omega) (by omega)]

theorem decDigits_nil_iff (n : Nat) : decDigitsFuel (n + 1) n = [] ↔ n = 0 := by
  constructor
  · intro h
    by_contra hn
    rw [decDigits_eq n hn] at h
    simp at h
  · intro h
    simp [h, decDigitsFuel]

theorem singleton_eq_append {α : Type} (xs : List α) (y a : α)
    (h : xs ++ [y] = [a]) : xs = [] ∧ y = a := by
  cases xs with
  | nil => simpa using h
  | cons c t => simp at h

theorem decDigits_inj : ∀ n m,
    decDigitsFuel (n + 1) n = decDigitsFuel (m + 1) m → n = m := by
  intro n
  induction n using Nat.strong_induction_on with
  | _ n ih =>
    intro m h
    by_cases hn : n = 0
    · subst hn
      by_cases hm : m = 0
      · omega
      · rw [decDigits_eq m hm] at h
        simp [decDigitsFuel] at h
    · by_cases hm : m = 0
      · rw [decDigits_eq n hn] at h
        simp [hm, decDigitsFuel] at h
      · rw [decDigits_eq n hn, decDigits_eq m hm] at h
        have h2 := congrArg List.reverse h
        simp only [List.reverse_append, List.reverse_cons, List.reverse_nil,
          List.nil_append, List.singleton_append, List.cons.injEq] at h2
        obtain ⟨hds, htl⟩ := h2
        have hrest : decDigitsFuel (n / 10 + 1) (n / 10)
            = decDigitsFuel (m / 10 + 1) (m / 10) := by
          have := congrArg List.reverse htl
          simpa using this
        have hmod : n % 10 = m % 10 :=
          decDigit_inj (Nat.mod_lt _ (by norm_num)) (Nat.mod_lt _ (by norm_num)) hds
        have hdiv : n / 10 = m / 10 :=
          ih (n / 10) (Nat.div_lt_self (Nat.pos_of_ne_zero hn) (by norm_num)) (m / 10) hrest
        omega

theorem decDigits_ne_zeroStr (m : Nat) (hm : m ≠ 0) :
    decDigitsFuel (m + 1) m ≠ ['0'] := by
  intro h
  rw [decDigits_eq m hm] at h
  obtain ⟨h1, h2⟩ := singleton_eq_append _ _ _ h
  have hd : m / 10 = 0 := by
    rcases Nat.eq_zero_or_pos (m / 10) with h0 | hpos
    · exact h0
    · exfalso
      rw [decDigits_eq (m / 10) (by omega)] at h1
      simp at h1
  have hz : m % 10 = 0 := by
    have : decDigit (m % 10) = decDigit 0 := by rw [h2]; rfl
    exact decDigit_inj (Nat.mod_lt _ (by norm_num)) (by norm_num) this
  omega

theorem natToStr_inj : ∀ n m, natToStr n = natToStr m → n = m := by
  intro n m h
  unfold natToStr at h
  by_cases hn : n = 0 <;> by_cases hm : m = 0
  · omega
  · simp only [hn, if_true, hm, if_false] at h
    exact absurd h.symm (decDigits_ne_zeroStr m hm)
  · simp only [hn, if_false, hm, if_true] at h
    exact absurd h (decDigits_ne_zeroStr n hn)
  · simp only [hn, if_false, hm, if_false] at h
    exact decDigits_inj n m h
theorem objGet_objSet (r : Rec) (k : Str) (v : JSVal) (q : Str) :
    objGet (objSet r k v) q = if q = k then some v else objGet r q := by
  induction r with
  | nil =>
    by_cases h : q = k
    · subst h; simp [objSet, objGet]
    · have h2 : ¬ k = q := fun e => h e.symm
      simp [objSet, objGet, h, h2]
  | cons p rest ih =>
    by_cases hpk : p.1 = k
    · by_cases h : q = k
      · subst h; simp_all [objSet, objGet]
      · have h2 : ¬ k = q := fun e => h e.symm
        simp_all [objSet, objGet, h2]
    · by_cases h : q = k <;> by_cases hqp : p.1 = q <;>
        simp_all [objSet, objGet]

/-- Arabic-script detection: the regex test for any character in the Arabic
Unicode block U+0600 to U+06FF. -/
def isArabicStr (s : Str) : Bool :=
  s.any (fun c => 0x600 ≤ c.toNat && c.toNat ≤ 0x6FF)

/-- English-letter detection (the regex [A-Za-z] test). -/
def isEnglishStr (s : Str) : Bool :=
  s.any (fun c => (65 ≤ c.toNat && c.toNat ≤ 90) || (97 ≤ c.toNat && c.toNat ≤ 122))

def kItemId : Str := ("Menu Item Id").data
def kName : Str := ("Menu Item Name").data
def kNameAr : Str := ("Menu Item Name[ar-ae]").data
def kDesc : Str := ("Description").data
def kDescAr : Str := ("Description[ar-ae]").data
def kBrand : Str := ("Brand Name").data
def kBrandAr : Str := ("Brand Name[ar-ae]").data
def kModGroup : Str := ("Modifier Group Name").data
def kModGroupAr : Str := ("Modifier Group Name[ar-ae]").data
def kModName : Str := ("Modifier Name").data
def kModNameAr : Str := ("Modifier Name[ar-ae]").data
def kPrice : Str := ("Price").data
def kImageUrl : Str := ("Image URL").data

/-- Field read with the or-empty-string guard and toString coercion used
throughout the translation service. -/
def fieldStr (item : Rec) (k : Str) : Str := (jsOr (objGetD item k) undefVal).toStr

namespace GeminiService

/-- One field of the first pass of translateMissingArabic: when the source
field holds Arabic text and the companion column is empty, the source value
is copied verbatim into the companion. -/
def copyArabicField (item : Rec) (srcVal : Str) (dst : Str) : Rec :=
  if srcVal ≠ [] ∧ isArabicStr srcVal ∧ ¬ (objGetD item dst).truthy then
    objSet item dst (JSVal.vstr srcVal)
  else item

/-- First pass of translateMissingArabic over one record (geminiService.ts,
the forEach at the top of the function): all five bilingual fields are read
up front, then each Arabic source value with an empty companion is copied
into its companion column. -/
def firstPassItem (item : Rec) : Rec :=
  let name := fieldStr item kName
  let desc := fieldStr item kDesc
  let brand := fieldStr item kBrand
  let modGroup := fieldStr item kModGroup
  let modName := fieldStr item kModName
  let i1 := copyArabicField item name kNameAr
  let i2 := copyArabicField i1 desc kDescAr
  let i3 := copyArabicField i2 brand kBrandAr
  let i4 := copyArabicField i3 modGroup kModGroupAr
  let i5 := copyArabicField i4 modName kModNameAr
  i5

/-- Second-pass selection predicate of translateMissingArabic: a record is
batched for machine translation when some bilingual field has a non-empty
non-Arabic source and an empty companion. -/
def needsTranslationItem (item : Rec) : Bool :=
  let name := fieldStr item kName
  let desc := fieldStr item kDesc
  let brand := fieldStr item kBrand
  let modGroup := fieldStr item kModGroup
  let modName := fieldStr item kModName
  (!name.isEmpty && !isArabicStr name && !(objGetD item kNameAr).truthy) ||
  (!desc.isEmpty && !isArabicStr desc && !(objGetD item kDescAr).truthy) ||
  (!brand.isEmpty && !isArabicStr brand && !(objGetD item kBrandAr).truthy) ||
  (!modGroup.isEmpty && !isArabicStr modGroup && !(objGetD item kModGroupAr).truthy) ||
  (!modName.isEmpty && !isArabicStr modName && !(objGetD item kModNameAr).truthy)

/-- The per-record payload submitted to the Translation Oracle for a batched
record: each field is sent verbatim when non-empty and non-Arabic, and as the
empty string otherwise (an empty field is by the oracle contract not
translated). -/
structure TransPayload where
  pname : Str
  pdesc : Str
  pbrand : Str
  pmodGroup : Str
  pmodName : Str
  deriving DecidableEq

/-- Payload construction of translateMissingArabic (the translationList map
inside processBatch). -/
def payloadOf (item : Rec) : TransPayload :=
  let name := fieldStr item kName
  let desc := fieldStr item kDesc
  let brand := fieldStr item kBrand
  let modGroup := fieldStr item kModGroup
  let modName := fieldStr item kModName
  { pname := if !name.isEmpty && !isArabicStr name then name else []
    pdesc := if !desc.isEmpty && !isArabicStr desc then desc else []
    pbrand := if !brand.isEmpty && !isArabicStr brand then brand else []
    pmodGroup := if !modGroup.isEmpty && !isArabicStr modGroup then modGroup else []
    pmodName := if !modName.isEmpty && !isArabicStr modName then modName else [] }

/-- A per-record Translation Oracle response row in the ensure-Arabic
direction. -/
structure TransResult where
  name_ar : Str
  desc_ar : Str
  brand_ar : Str
  mod_group_ar : Str
  mod_name_ar : Str
  deriving DecidableEq

/-- Write-back of one oracle response row onto its matched record
(geminiService.ts, the results.forEach of processBatch): the Name,
Description and Brand Name companions are written only when the source field
is truthy, the returned value non-empty, and the companion still empty; the
Modifier Group Name and Modifier Name companions are written whenever the
source field is truthy and the returned value non-empty. -/
def applyTransResult (item : Rec) (res : TransResult) : Rec :=
  let i1 := if (objGetD item kName).truthy ∧ ¬ res.name_ar.isEmpty ∧
      ¬ (objGetD item kNameAr).truthy then
      objSet item kNameAr (JSVal.vstr res.name_ar) else item
  let i2 := if (objGetD i1 kDesc).truthy ∧ ¬ res.desc_ar.isEmpty ∧
      ¬ (objGetD i1 kDescAr).truthy then
      objSet i1 kDescAr (JSVal.vstr res.desc_ar) else i1
  let i3 := if (objGetD i2 kBrand).truthy ∧ ¬ res.brand_ar.isEmpty ∧
      ¬ (objGetD i2 kBrandAr).truthy then
      objSet i2 kBrandAr (JSVal.vstr res.brand_ar) else i2
  let i4 := if (objGetD i3 kModGroup).truthy ∧ ¬ res.mod_group_ar.isEmpty then
      objSet i3 kModGroupAr (JSVal.vstr res.mod_group_ar) else i3
  let i5 := if (objGetD i4 kModName).truthy ∧ ¬ res.mod_name_ar.isEmpty then
      objSet i4 kModNameAr (JSVal.vstr res.mod_name_ar) else i4
  i5

end GeminiService
theorem objGetD_objSet (r : Rec) (k : Str) (v : JSVal) (q : Str) :
    objGetD (objSet r k v) q = if q = k then v else objGetD r q := by
  unfold objGetD
  rw [objGet_objSet]
  split <;> rfl

theorem peelGet (it : Rec) (c : Prop) [Decidable c] (k : Str) (v : JSVal)
    (q : Str) (h : q ≠ k) :
    objGet (if c then objSet it k v else it) q = objGet it q := by
  split
  · rw [objGet_objSet, if_neg h]
  · rfl

theorem peelGetD (it : Rec) (c : Prop) [Decidable c] (k : Str) (v : JSVal)
    (q : Str) (h : q ≠ k) :
    objGetD (if c then objSet it k v else it) q = objGetD it q := by
  unfold objGetD
  rw [peelGet it c k v q h]

theorem selfGet (it : Rec) (c : Prop) [Decidable c] (k : Str) (v : JSVal) :
    objGet (if c then objSet it k v else it) k
      = if c then some v else objGet it k := by
  split <;> simp [objGet_objSet]

namespace GeminiService

theorem fieldStr_of_objGet {it1 it2 : Rec} {k : Str}
    (h : objGet it1 k = objGet it2 k) : fieldStr it1 k = fieldStr it2 k := by
  unfold fieldStr objGetD
  rw [h]

/-- Claim C3: in the ensure-Arabic direction, a record whose Menu Item Name
is non-empty, contains a character of the Arabic Unicode block, and has an
empty Arabic companion, gets the companion set to the source value verbatim
by the first pass, and the payload submitted to the Translation Oracle for
that record carries the empty string in the name slot, so the (record, name)
pair is never submitted for translation. -/
theorem claim_C3 (item : Rec)
    (hne : fieldStr item kName ≠ [])
    (har : isArabicStr (fieldStr item kName) = true)
    (hempty : (objGetD item kNameAr).truthy = false) :
    objGetD (firstPassItem item) kNameAr = JSVal.vstr (fieldStr item kName)
      ∧ (payloadOf (firstPassItem item)).pname = [] := by
  have hcopy : copyArabicField item (fieldStr item kName) kNameAr
      = objSet item kNameAr (JSVal.vstr (fieldStr item kName)) := by
    unfold copyArabicField
    rw [if_pos ⟨hne, by simp [har], by simp [hempty]⟩]
  have hchain : ∀ q : Str, q ≠ kDescAr → q ≠ kBrandAr → q ≠ kModGroupAr →
      q ≠ kModNameAr →
      objGet (firstPassItem item) q
        = objGet (copyArabicField item (fieldStr item kName) kNameAr) q := by
    intro q h1 h2 h3 h4
    simp only [firstPassItem]
    unfold copyArabicField
    rw [peelGet _ _ _ _ _ h4, peelGet _ _ _ _ _ h3, peelGet _ _ _ _ _ h2,
      peelGet _ _ _ _ _ h1]
  constructor
  · have h5 := hchain kNameAr (by decide) (by decide) (by decide) (by decide)
    rw [hcopy] at h5
    rw [objGet_objSet] at h5
    simp only [if_pos rfl] at h5
    unfold objGetD
    rw [h5]
    rfl
  · have h5 := hchain kName (by decide) (by decide) (by decide) (by decide)
    rw [hcopy, objGet_objSet, if_neg (by decide : kName ≠ kNameAr)] at h5
    have hfs : fieldStr (firstPassItem item) kName = fieldStr item kName :=
      fieldStr_of_objGet h5
    unfold payloadOf
    simp only [hfs, har]
    simp

/-- Witness for claim C3 at the record of spec test 3: Name holds Arabic
text and the companion is empty. -/
theorem claim_C3_witness :
    (fieldStr [(kName, JSVal.vstr ("برجر الدجاج").data)] kName ≠ []
        ∧ isArabicStr (fieldStr [(kName, JSVal.vstr ("برجر الدجاج").data)] kName) = true
        ∧ (objGetD [(kName, JSVal.vstr ("برجر الدجاج").data)] kNameAr).truthy = false)
      ∧ (objGetD (firstPassItem [(kName, JSVal.vstr ("برجر الدجاج").data)]) kNameAr
            = JSVal.vstr (fieldStr [(kName, JSVal.vstr ("برجر الدجاج").data)] kName)
          ∧ (payloadOf (firstPassItem [(kName, JSVal.vstr ("برجر الدجاج").data)])).pname = []) :=
  ⟨⟨by decide, by decide, by decide⟩,
    claim_C3 [(kName, JSVal.vstr ("برجر الدجاج").data)] (by decide) (by decide) (by decide)⟩

end GeminiService
namespace GeminiService

/-- Claim C4 (amended): characterization of the ensure-Arabic write-back.
For Menu Item Name, Description and Brand Name, the returned Arabic text is
written into the companion only when the source field is truthy, the
returned value is non-empty and the companion is still empty, and the
companion is otherwise unchanged; for Modifier Group Name and Modifier Name
the returned text is written whenever the source field is truthy and the
returned value is non-empty, even over a non-empty companion.  The base
fields themselves are never modified by the write-back. -/
theorem claim_C4_amended (item : Rec) (res : TransResult) :
    (objGet (applyTransResult item res) kNameAr
        = if (objGetD item kName).truthy ∧ ¬ res.name_ar.isEmpty ∧
            ¬ (objGetD item kNameAr).truthy
          then some (JSVal.vstr res.name_ar) else objGet item kNameAr)
    ∧ (objGet (applyTransResult item res) kDescAr
        = if (objGetD item kDesc).truthy ∧ ¬ res.desc_ar.isEmpty ∧
            ¬ (objGetD item kDescAr).truthy
          then some (JSVal.vstr res.desc_ar) else objGet item kDescAr)
    ∧ (objGet (applyTransResult item res) kBrandAr
        = if (objGetD item kBrand).truthy ∧ ¬ res.brand_ar.isEmpty ∧
            ¬ (objGetD item kBrandAr).truthy
          then some (JSVal.vstr res.brand_ar) else objGet item kBrandAr)
    ∧ (objGet (applyTransResult item res) kModGroupAr
        = if (objGetD item kModGroup).truthy ∧ ¬ res.mod_group_ar.isEmpty
          then some (JSVal.vstr res.mod_group_ar) else objGet item kModGroupAr)
    ∧ (objGet (applyTransResult item res) kModNameAr
        = if (objGetD item kModName).truthy ∧ ¬ res.mod_name_ar.isEmpty
          then some (JSVal.vstr res.mod_name_ar) else objGet item kModNameAr)
    ∧ objGet (applyTransResult item res) kName = objGet item kName
    ∧ objGet (applyTransResult item res) kDesc = objGet item kDesc
    ∧ objGet (applyTransResult item res) kBrand = objGet item kBrand
    ∧ objGet (applyTransResult item res) kModGroup = objGet item kModGroup
    ∧ objGet (applyTransResult item res) kModName = objGet item kModName := by
  simp only [applyTransResult]
  simp only [peelGetD _ _ _ _ _ (show kDesc ≠ kNameAr from by decide),
    peelGetD _ _ _ _ _ (show kDescAr ≠ kNameAr from by decide),
    peelGetD _ _ _ _ _ (show kBrand ≠ kNameAr from by decide),
    peelGetD _ _ _ _ _ (show kBrand ≠ kDescAr from by decide),
    peelGetD _ _ _ _ _ (show kBrandAr ≠ kNameAr from by decide),
    peelGetD _ _ _ _ _ (show kBrandAr ≠ kDescAr from by decide),
    peelGetD _ _ _ _ _ (show kModGroup ≠ kNameAr from by decide),
    peelGetD _ _ _ _ _ (show kModGroup ≠ kDescAr from by decide),
    peelGetD _ _ _ _ _ (show kModGroup ≠ kBrandAr from by decide),
    peelGetD _ _ _ _ _ (show kModName ≠ kNameAr from by decide),
    peelGetD _ _ _ _ _ (show kModName ≠ kDescAr from by decide),
    peelGetD _ _ _ _ _ (show kModName ≠ kBrandAr from by decide),
    peelGetD _ _ _ _ _ (show kModName ≠ kModGroupAr from by decide)]
  refine ⟨?_, ?_, ?_, ?_, ?_, ?_, ?_, ?_, ?_, ?_⟩
  · rw [peelGet _ _ _ _ _ (show kNameAr ≠ kModNameAr from by decide),
      peelGet _ _ _ _ _ (show kNameAr ≠ kModGroupAr from by decide),
      peelGet _ _ _ _ _ (show kNameAr ≠ kBrandAr from by decide),
      peelGet _ _ _ _ _ (show kNameAr ≠ kDescAr from by decide),
      selfGet]
  · rw [peelGet _ _ _ _ _ (show kDescAr ≠ kModNameAr from by decide),
      peelGet _ _ _ _ _ (show kDescAr ≠ kModGroupAr from by decide),
      peelGet _ _ _ _ _ (show kDescAr ≠ kBrandAr from by decide),
      selfGet, peelGet _ _ _ _ _ (show kDescAr ≠ kNameAr from by decide)]
  · rw [peelGet _ _ _ _ _ (show kBrandAr ≠ kModNameAr from by decide),
      peelGet _ _ _ _ _ (show kBrandAr ≠ kModGroupAr from by decide),
      selfGet, peelGet _ _ _ _ _ (show kBrandAr ≠ kDescAr from by decide),
      peelGet _ _ _ _ _ (show kBrandAr ≠ kNameAr from by decide)]
  · rw [peelGet _ _ _ _ _ (show kModGroupAr ≠ kModNameAr from by decide),
      selfGet, peelGet _ _ _ _ _ (show kModGroupAr ≠ kBrandAr from by decide),
      peelGet _ _ _ _ _ (show kModGroupAr ≠ kDescAr from by decide),
      peelGet _ _ _ _ _ (show kModGroupAr ≠ kNameAr from by decide)]
  · rw [selfGet, peelGet _ _ _ _ _ (show kModNameAr ≠ kModGroupAr from by decide),
      peelGet _ _ _ _ _ (show kModNameAr ≠ kBrandAr from by decide),
      peelGet _ _ _ _ _ (show kModNameAr ≠ kDescAr from by decide),
      peelGet _ _ _ _ _ (show kModNameAr ≠ kNameAr from by decide)]
  · rw [peelGet _ _ _ _ _ (show kName ≠ kModNameAr from by decide),
      peelGet _ _ _ _ _ (show kName ≠ kModGroupAr from by decide),
      peelGet _ _ _ _ _ (show kName ≠ kBrandAr from by decide),
      peelGet _ _ _ _ _ (show kName ≠ kDescAr from by decide),
      peelGet _ _ _ _ _ (show kName ≠ kNameAr from by decide)]
  · rw [peelGet _ _ _ _ _ (show kDesc ≠ kModNameAr from by decide),
      peelGet _ _ _ _ _ (show kDesc ≠ kModGroupAr from by decide),
      peelGet _ _ _ _ _ (show kDesc ≠ kBrandAr from by decide),
      peelGet _ _ _ _ _ (show kDesc ≠ kDescAr from by decide),
      peelGet _ _ _ _ _ (show kDesc ≠ kNameAr from by decide)]
  · rw [peelGet _ _ _ _ _ (show kBrand ≠ kModNameAr from by decide),
      peelGet _ _ _ _ _ (show kBrand ≠ kModGroupAr from by decide),
      peelGet _ _ _ _ _ (show kBrand ≠ kBrandAr from by decide),
      peelGet _ _ _ _ _ (show kBrand ≠ kDescAr from by decide),
      peelGet _ _ _ _ _ (show kBrand ≠ kNameAr from by decide)]
  · rw [peelGet _ _ _ _ _ (show kModGroup ≠ kModNameAr from by decide),
      peelGet _ _ _ _ _ (show kModGroup ≠ kModGroupAr from by decide),
      peelGet _ _ _ _ _ (show kModGroup ≠ kBrandAr from by decide),
      peelGet _ _ _ _ _ (show kModGroup ≠ kDescAr from by decide),
      peelGet _ _ _ _ _ (show kModGroup ≠ kNameAr from by decide)]
  · rw [peelGet _ _ _ _ _ (show kModName ≠ kModNameAr from by decide),
      peelGet _ _ _ _ _ (show kModName ≠ kModGroupAr from by decide),
      peelGet _ _ _ _ _ (show kModName ≠ kBrandAr from by decide),
      peelGet _ _ _ _ _ (show kModName ≠ kDescAr from by decide),
      peelGet _ _ _ _ _ (show kModName ≠ kNameAr from by decide)]

/-- A record whose Modifier Group Name companion is already populated. -/
def cexItem4 : Rec :=
  [(kModGroup, JSVal.vstr ("Extras").data),
   (kModGroupAr, JSVal.vstr ("إضافات").data)]

/-- An oracle response carrying a different Arabic value for the modifier
group. -/
def cexRes4 : TransResult :=
  { name_ar := [], desc_ar := [], brand_ar := [],
    mod_group_ar := ("الإضافات الجديدة").data, mod_name_ar := [] }

/-- Counterexample to claim C4 as stated: the record's Modifier Group Name
companion is non-empty before the write-back, yet the write-back replaces it
with the returned value, so the companion is not left unchanged when it is
already populated. -/
theorem claim_C4_counterexample :
    (objGetD cexItem4 kModGroupAr).truthy = true
    ∧ objGet (applyTransResult cexItem4 cexRes4) kModGroupAr
        = some (JSVal.vstr (("الإضافات الجديدة").data))
    ∧ objGet cexItem4 kModGroupAr ≠ some (JSVal.vstr (("الإضافات الجديدة").data)) := by
  refine ⟨by decide, by decide, by decide⟩

end GeminiService
def kBrandId : Str := ("Brand Id").data
def kExternalId : Str := ("External Id").data
def kBarcode : Str := ("Barcode").data
def kPrepTime : Str := ("Preparation Time").data
def kRoutingLabelId : Str := ("Routing Label Id").data
def kRoutingLabel : Str := ("Routing Label").data
def kRoutingLabelAr : Str := ("Routing Label[ar-ae]").data
def kIngredient : Str := ("Ingredient").data
def kPackaging : Str := ("Packaging").data
def kSubModGroup : Str := ("Sub-Modifier Group Name").data
def kSubModGroupAr : Str := ("Sub-Modifier Group Name[ar-ae]").data
def kSubModName : Str := ("Sub-Modifier Name").data
def kSubModNameAr : Str := ("Sub-Modifier Name[ar-ae]").data
def kClassification : Str := ("Classification").data
def kClassificationAr : Str := ("Classification[ar-ae]").data
def kAllergen : Str := ("Allergen").data
def kAllergenAr : Str := ("Allergen[ar-ae]").data
def kTag : Str := ("Tag").data
def kTagAr : Str := ("Tag[ar-ae]").data
def kCalories : Str := ("Calories(kcal)").data
def kCaffeine : Str := ("Caffeine Content(g)").data
def kSodium : Str := ("Sodium Content(g)").data
def kSalt : Str := ("Salt Content(g)").data
def kActive : Str := ("Active").data
def kImageSrc : Str := ("_imageSource").data

/-- Association lookup on a string-to-string table (first match). -/
def assocGet : List (Str × Str) → Str → Option Str
  | [], _ => none
  | p :: rest, k => if p.1 = k then some p.2 else assocGet rest k

/-- Substring containment (the JavaScript includes test). -/
def strContains (pat : Str) : Str → Bool
  | [] => pat.isEmpty
  | c :: rest => pat.isPrefixOf (c :: rest) || strContains pat rest

namespace ExcelService

/-- The static HEADER_MAPPINGS alias table of services/excelService.ts. -/
def HEADER_MAPPINGS : List (Str × Str) :=
  [(("id").data, kItemId), (("item id").data, kItemId),
   (("menu item id").data, kItemId), (("item_id").data, kItemId),
   (("name").data, kName), (("item name").data, kName),
   (("menu item name").data, kName), (("title").data, kName),
   (("brand").data, kBrand), (("brand name").data, kBrand),
   (("brand id").data, kBrandId),
   (("description").data, kDesc), (("desc").data, kDesc),
   (("price").data, kPrice), (("cost").data, kPrice), (("amount").data, kPrice),
   (("calories").data, kCalories), (("kcal").data, kCalories),
   (("tag").data, kTag), (("tags").data, kTag),
   (("classification").data, kClassification),
   (("allergen").data, kAllergen), (("allergens").data, kAllergen),
   (("external id").data, kExternalId), (("barcode").data, kBarcode),
   (("active").data, kActive), (("status").data, kActive),
   (("enabled").data, kActive), (("category").data, kTag),
   (("images").data, kImageUrl), (("image").data, kImageUrl),
   (("image url").data, kImageUrl), (("imageurl").data, kImageUrl),
   (("modifier group").data, kModGroup), (("modifier group name").data, kModGroup),
   (("mod group").data, kModGroup), (("modifiergroup").data, kModGroup),
   (("addon group").data, kModGroup),
   (("modifier name").data, kModName), (("modifier_name").data, kModName),
   (("modifiername").data, kModName), (("modifier").data, kModName),
   (("addon").data, kModName), (("addon name").data, kModName),
   (("sub modifier group").data, kSubModGroup),
   (("sub-modifier group").data, kSubModGroup),
   (("sub modifier name").data, kSubModName),
   (("sub-modifier name").data, kSubModName)]

/-- The bilingual column suffix. -/
def arTag : Str := ("[ar-ae]").data

/-- The inline translation-row marker. -/
def arMarker : Str := ("[ar-ae]:").data

/-- One language-suffix attempt of the normalizeRow regexes: the cleaned key
matches the pattern when it ends with the bracketed language code (with any
run of spaces before the bracket absorbed by the base trim) and a non-empty
base remains. -/
def trySuffix (s : Str) (op cl : Char) (l : Str) : Option (Str × Str) :=
  let suf : Str := op :: l ++ [cl]
  if suf.isSuffixOf s ∧ suf.length < s.length then
    some (jsTrim (s.take (s.length - suf.length)), l)
  else none

/-- Language-suffix match for one bracket shape, over the three language
codes accepted by normalizeRow (the three regex alternatives are mutually
exclusive as string endings, so the match is the one the regex would
produce). -/
def matchLangShape (s : Str) (op cl : Char) : Option (Str × Str) :=
  (trySuffix s op cl (("ar-ae").data)).orElse fun _ =>
    (trySuffix s op cl (("en").data)).orElse fun _ =>
      trySuffix s op cl (("ar").data)

/-- Header-key resolution of normalizeRow (services/excelService.ts): the
key is lower-cased and trimmed; a parenthesised language suffix is tried
first, then a square-bracketed one; the matched base resolves through the
alias table and Arabic variants write to the Arabic-suffixed column; without
a language suffix the cleaned key resolves through the alias table, and an
unknown key passes through unchanged (under its original spelling). -/
def normalizeKey (k : Str) : Str :=
  let clean := jsTrim (jsToLower k)
  match matchLangShape clean '(' ')' with
  | some (base, l) =>
    let mapped := (assocGet HEADER_MAPPINGS base).getD base
    if l = ("ar").data ∨ l = ("ar-ae").data then mapped ++ arTag else mapped
  | none =>
    match matchLangShape clean '[' ']' with
    | some (base, l) =>
      let mapped := (assocGet HEADER_MAPPINGS base).getD base
      if l = ("ar").data ∨ l = ("ar-ae").data then mapped ++ arTag else mapped
    | none => (assocGet HEADER_MAPPINGS clean).getD k

/-- normalizeRow: every raw key resolves through normalizeKey, last write
wins on collisions. -/
def normalizeRow (row : Rec) : Rec :=
  row.foldl (fun acc p => objSet acc (normalizeKey p.1) p.2) []

/-- The SMALL_WORDS list of applyTitleCase. -/
def SMALL_WORDS : List Str :=
  [("a").data, ("an").data, ("the").data, ("and").data, ("or").data,
   ("but").data, ("in").data, ("on").data, ("at").data, ("to").data,
   ("for").data, ("of").data, ("with").data, ("ml").data, ("l").data,
   ("pcs").data]

/-- The unit words kept upper-case by applyTitleCase. -/
def UNIT_WORDS : List Str := [("ml").data, ("l").data, ("pcs").data]

/-- applyTitleCase of services/excelService.ts. -/
def applyTitleCase (text : Str) : Str :=
  if text = [] then []
  else
    let words := (jsToLower text).splitOn ' '
    List.intercalate [' '] (words.enum.map (fun p =>
      if p.2 ∈ UNIT_WORDS then jsToUpper p.2
      else if 0 < p.1 ∧ p.2 ∈ SMALL_WORDS then p.2
      else match p.2 with
        | [] => []
        | c :: t => upperChar c :: t))

/-- ASCII letters, for the currency-code regex character class. -/
def isLetterCh (c : Char) : Bool :=
  (65 ≤ c.toNat && c.toNat ≤ 90) || (97 ≤ c.toNat && c.toNat ≤ 122)

/-- First match of the currency regex: three consecutive ASCII letters,
scanning from the left. -/
def findCurrency : Str → Option Str
  | c1 :: c2 :: c3 :: rest =>
    if isLetterCh c1 && isLetterCh c2 && isLetterCh c3 then some [c1, c2, c3]
    else findCurrency (c2 :: c3 :: rest)
  | _ => none

/-- The numeric-run regex character class: digits, comma, dot. -/
def isNumCh (c : Char) : Bool := c.isDigit || c == ',' || c == '.'

/-- First match of the numeric-run regex: the first maximal run of digits,
commas and dots. -/
def findNumRun : Str → Option Str
  | [] => none
  | c :: rest =>
    if isNumCh c then some (c :: rest.takeWhile isNumCh) else findNumRun rest

/-- Decimal digits to a natural number. -/
def digitsToNat (s : Str) : Nat := s.foldl (fun a c => a * 10 + (c.toNat - 48)) 0

/-- parseFloat on the strings the numeric-run regex can produce: leading
integer digits, an optional dot and fraction digits; no digits at all is
NaN, modelled as none.  The inputs here are short terminating decimals, so
the rational result is exactly the JavaScript number. -/
def jsParseFloat (s : Str) : Option ℚ :=
  let ip := s.takeWhile Char.isDigit
  let rest := s.drop ip.length
  let fp : Str := if rest.head? = some '.' then (rest.drop 1).takeWhile Char.isDigit else []
  if ip = [] ∧ fp = [] then none
  else some ((digitsToNat ip : ℚ) + (digitsToNat fp : ℚ) / (10 : ℚ) ^ fp.length)

/-- parsePrice of services/excelService.ts.  The first component is the
currency (null exactly when the input string is empty, otherwise the
upper-cased first three-letter match or the AED default); the second is the
parsed value: outer none is null (no numeric run), some none is NaN, and
some (some q) is the number q. -/
def parsePrice (priceStr : Str) : Option Str × Option (Option ℚ) :=
  if priceStr = [] then (none, none)
  else
    let cleanPrice := jsTrim priceStr
    let currency := match findCurrency cleanPrice with
      | some m => jsToUpper m
      | none => ("AED").data
    let value := match findNumRun cleanPrice with
      | some run => some (jsParseFloat (removeFirst [','] run))
      | none => none
    (some currency, value)

/-- convertDriveLinkToDirectUrl: find the file id after the first matching
position of the pattern that is followed by at least one id character, as
the drive-link regexes do. -/
def findAfterPat (pat : Str) : Str → Option Str
  | [] => none
  | c :: rest =>
    if pat.isPrefixOf (c :: rest) then
      let run := ((c :: rest).drop pat.length).takeWhile
        (fun ch => ch.isAlphanum || ch == '_' || ch == '-')
      if run = [] then findAfterPat pat rest else some run
    else findAfterPat pat rest

/-- convertDriveLinkToDirectUrl of services/excelService.ts. -/
def convertDriveLinkToDirectUrl (url : Str) : Str :=
  if url = [] then url
  else if strContains (("drive.google.com").data) url then
    match (findAfterPat (("/d/").data) url).orElse
        (fun _ => findAfterPat (("id=").data) url) with
    | some fid =>
      (("https://drive.google.com/thumbnail?id=").data) ++ fid ++ (("&sz=w1000").data)
    | none => url
  else url

/-- The transformation options record. -/
structure TransformOptions where
  applyTitleCase : Bool
  extractArabic : Bool
  splitPrice : Bool
  useStockImages : Bool
  autoTranslate : Bool
  autoTranslateArToEn : Bool
  estimateCalories : Bool
  generateAndSyncImages : Bool
  deriving DecidableEq

/-- The running state of the transformMenuData row loop: the records pushed
so far (the current-primary pointer of the source is always the last pushed
record, and is null exactly when no record has been pushed), the collected
anomalies, the detected currencies in insertion order, and the Arabic
coverage counter. -/
structure LoopState where
  records : List Rec
  anomalies : List Str
  currencies : List Str
  arabicCount : Nat
  deriving DecidableEq

/-- Insertion into the currency Set (insertion order, no duplicates). -/
def currAdd (cs : List Str) (c : Str) : List Str := if c ∈ cs then cs else cs ++ [c]

/-- The effective name of a row: Menu Item Name, else Modifier Name, else
Modifier Group Name, else the empty string. -/
def itemNameOf (row : Rec) : JSVal :=
  jsOr (objGetD row kName)
    (jsOr (objGetD row kModName) (jsOr (objGetD row kModGroup) undefVal))

/-- Translation-row test: empty Menu Item Id and an effective name starting
with the bilingual marker. -/
def isTransRow (row : Rec) : Bool :=
  !(objGetD row kItemId).truthy && arMarker.isPrefixOf (itemNameOf row).toStr

/-- The orphan anomaly message, referencing the display row number i + 2 of
the 0-based data row i (row 1 of the sheet being the header row). -/
def orphanMsg (i : Nat) (itemName : JSVal) : Str :=
  (("Orphan Arabic translation found at row ").data) ++ natToStr (i + 2)
    ++ ((": ").data) ++ [ '"' ] ++ itemName.toStr ++ [ '"' ]

/-- The generated split-price column name for a currency code. -/
def priceKey (c : Str) : Str := (("Price[").data) ++ c ++ (("]").data)

/-- The generated item id for the 0-based row index i. -/
def autoGenId (i : Nat) : Str := (("auto-gen-").data) ++ natToStr i

/-- The Arabic value merge a translation row performs on the current primary
record, routed by which name field carried the marker, plus the optional
marked description. -/
def applyTransRow (row : Rec) (cur : Rec) : Rec :=
  let nm := (itemNameOf row).toStr
  let cleanVal := jsTrim (removeFirst arMarker nm)
  let c1 :=
    if (objGetD row kModGroup).truthy then objSet cur kModGroupAr (JSVal.vstr cleanVal)
    else if (objGetD row kModName).truthy then objSet cur kModNameAr (JSVal.vstr cleanVal)
    else objSet cur kNameAr (JSVal.vstr cleanVal)
  let desc := (jsOr (objGetD row kDesc) undefVal).toStr
  if arMarker.isPrefixOf desc then
    objSet c1 kDescAr (JSVal.vstr (jsTrim (removeFirst arMarker desc)))
  else c1

/-- The fields of a primary record that title-casing rewrites. -/
def titleKeys : List Str :=
  [kName, kDesc, kBrand, kTag, kClassification, kRoutingLabel,
   kModGroup, kModName, kSubModGroup, kSubModName]

/-- Title-casing pass over a primary record. -/
def applyTitleKeys (item : Rec) : Rec :=
  titleKeys.foldl (fun it k =>
    if (objGetD it k).truthy then
      objSet it k (JSVal.vstr (applyTitleCase (objGetD it k).toStr))
    else it) item

/-- NaN or a number, as the value stored into the split price column. -/
def valToJS : Option ℚ → JSVal
  | some q => JSVal.vnum q
  | none => JSVal.vnan

/-- First stage of primary-record construction: auto-generate the id when
the normalized row's id is falsy, drop the raw Price field, and optionally
title-case the text fields. -/
def primBase (opts : TransformOptions) (i : Nat) (row : Rec) : Rec :=
  let n1 := if ¬ (objGetD row kItemId).truthy then
      objSet row kItemId (JSVal.vstr (autoGenId i)) else row
  let n2 := objDel n1 kPrice
  if opts.applyTitleCase then applyTitleKeys n2 else n2

/-- Price-splitting stage: when enabled and the raw row carries a truthy
Price, parse it and store the value under the currency column, reporting the
detected currency. -/
def primPrice (opts : TransformOptions) (row : Rec) (n3 : Rec) : Rec × Option Str :=
  if opts.splitPrice ∧ (objGetD row kPrice).truthy then
    match parsePrice ((objGetD row kPrice).toStr) with
    | (some c, some v) =>
      if c ≠ [] then (objSet n3 (priceKey c) (valToJS v), some c) else (n3, none)
    | _ => (n3, none)
  else (n3, none)

/-- Drive-link rewrite stage on the image column. -/
def primImage (n4 : Rec) : Rec :=
  if (objGetD n4 kImageUrl).truthy then
    let u := (objGetD n4 kImageUrl).toStr
    if strContains (("drive.google.com").data) u then
      objSet n4 kImageUrl (JSVal.vstr (convertDriveLinkToDirectUrl u))
    else n4
  else n4

/-- Construction of a primary record from a normalized row at 0-based index
i: auto-generate the id when absent, drop the raw Price field, optionally
title-case, optionally split the price into a currency column (returning the
detected currency), and rewrite drive links in the image column. -/
def processPrimary (opts : TransformOptions) (i : Nat) (row : Rec) : Rec × Option Str :=
  let pc := primPrice opts row (primBase opts i row)
  (primImage pc.1, pc.2)

/-- Replacement of the last pushed record (the current primary record is
mutated in place in the source, and it is always the last pushed record). -/
def updateLast (f : Rec → Rec) : List Rec → List Rec
  | [] => []
  | [r] => [f r]
  | r :: rest => r :: updateLast f rest

/-- One iteration of the transformMenuData row loop at 0-based index i. -/
def loopStep (opts : TransformOptions) (i : Nat) (st : LoopState) (rawRow : Rec) :
    LoopState :=
  let row := normalizeRow rawRow
  let nm := itemNameOf row
  if isTransRow row && opts.extractArabic then
    if st.records ≠ [] then
      { st with records := updateLast (applyTransRow row) st.records,
                arabicCount := st.arabicCount + 1 }
    else { st with anomalies := st.anomalies ++ [orphanMsg i nm] }
  else if (objGetD row kItemId).truthy ∨ nm.truthy then
    let pr := processPrimary opts i row
    { st with records := st.records ++ [pr.1],
              currencies := match pr.2 with
                | some c => currAdd st.currencies c
                | none => st.currencies }
  else st

/-- The whole row loop from a given index and state. -/
def runLoop (opts : TransformOptions) : Nat → LoopState → List Rec → LoopState
  | _, st, [] => st
  | i, st, r :: rest => runLoop opts (i + 1) (loopStep opts i st r) rest

/-- UTF-16 code-unit lexicographic comparison, the default JavaScript array
sort order on strings. -/
def strLe : Str → Str → Bool
  | [], _ => true
  | _ :: _, [] => false
  | a :: as, b :: bs =>
    if a.toNat < b.toNat then true
    else if b.toNat < a.toNat then false
    else strLe as bs

/-- Sorting by the lexicographic order; the currency codes are pairwise
distinct and the order is total, so this is the JavaScript Array sort. -/
def insertSorted (x : Str) : List Str → List Str
  | [] => [x]
  | y :: ys => if strLe x y then x :: y :: ys else y :: insertSorted x ys

/-- Sorted currency list (JavaScript Array.from(set).sort()). -/
def sortStr (l : List Str) : List Str := l.foldr insertSorted []

/-- The fixed output column order of transformMenuData, with one price
column per detected currency in sorted order. -/
def finalOrder (currencies : List Str) : List Str :=
  [kItemId, kName, kNameAr, kDesc, kDescAr, kBrandId, kBrand, kBrandAr,
   kModGroup, kModGroupAr, kModName, kModNameAr,
   kSubModGroup, kSubModGroupAr, kSubModName, kSubModNameAr,
   kExternalId, kBarcode, kPrepTime,
   kRoutingLabelId, kRoutingLabel, kRoutingLabelAr, kIngredient, kPackaging]
  ++ currencies.map priceKey
  ++ [kClassification, kClassificationAr, kAllergen, kAllergenAr,
      kTag, kTagAr, kCalories, kCaffeine, kSodium, kSalt, kImageUrl]

/-- Reindexing of one record to the fixed column list, filling absent and
null values with the empty string, plus the internal image-source tag. -/
def reindexItem (cols : List Str) (item : Rec) : Rec :=
  let o := cols.foldl (fun acc k =>
    objSet acc k (match objGet item k with | some v => v | none => JSVal.vstr [])) []
  objSet o kImageSrc (jsOr (objGetD item kImageSrc) (JSVal.vstr (("none").data)))

/-- The transformation statistics record. -/
structure TransformStats where
  totalRawRows : Nat
  totalItemsProcessed : Nat
  arabicTranslationsFound : Nat
  autoTranslatedCount : Nat
  caloriesEstimatedCount : Nat
  imagesFromDB : Nat
  imagesGenerated : Nat
  currenciesDetected : List Str
  anomalies : List Str
  deriving DecidableEq

/-- The transformation result. -/
structure MenuTransformResult where
  data : List Rec
  stats : TransformStats
  deriving DecidableEq

/-- transformMenuData of services/excelService.ts. -/
def transformMenuData (rawData : List Rec) (opts : TransformOptions) :
    MenuTransformResult :=
  if rawData = [] then
    { data := [],
      stats := ⟨0, 0, 0, 0, 0, 0, 0, [],
        [(("The uploaded file appears to be empty.").data)]⟩ }
  else
    let st := runLoop opts 0 ⟨[], [], [], 0⟩ rawData
    let sortedCur := sortStr st.currencies
    let cols := finalOrder sortedCur
    { data := st.records.map (reindexItem cols),
      stats := ⟨rawData.length, st.records.length, st.arabicCount,
        0, 0, 0, 0, sortedCur, st.anomalies⟩ }

end ExcelService
theorem objGet_objDel (r : Rec) (k q : Str) (h : q ≠ k) :
    objGet (objDel r k) q = objGet r q := by
  induction r with
  | nil => rfl
  | cons p rest ih =>
    by_cases hpk : p.1 = k
    · have hpq : p.1 ≠ q := fun e => h (e.symm.trans hpk)
      simp [objDel, objGet, hpk, hpq, ih, Ne.symm h]
    · by_cases hpq : p.1 = q <;> simp [objDel, objGet, hpk, hpq, ih, h, Ne.symm h]

theorem objGet_ite {x : Option JSVal} (c : Prop) [Decidable c] (a b : Rec) (q : Str)
    (h1 : objGet a q = x) (h2 : objGet b q = x) :
    objGet (if c then a else b) q = x := by
  split <;> assumption

theorem foldl_objSet_lookup (cols : List Str) (g : Str → JSVal) (init : Rec) (q : Str) :
    objGet (cols.foldl (fun a k => objSet a k (g k)) init) q
      = if q ∈ cols then some (g q) else objGet init q := by
  induction cols generalizing init with
  | nil => simp
  | cons k rest ih =>
    simp only [List.foldl_cons, ih, objGet_objSet, List.mem_cons]
    by_cases hq : q ∈ rest
    · simp [hq]
    · by_cases hqk : q = k <;> simp [hq, hqk]

namespace ExcelService

theorem itemName_untruthy (row : Rec) (h : (itemNameOf row).truthy = false) :
    itemNameOf row = undefVal := by
  unfold itemNameOf jsOr at h ⊢
  by_cases h1 : (objGetD row kName).truthy <;>
    by_cases h2 : (objGetD row kModName).truthy <;>
      by_cases h3 : (objGetD row kModGroup).truthy <;>
        simp_all

theorem applyTitleKeys_get (it : Rec) (q : Str) (hq : ¬ q ∈ titleKeys) :
    objGet (applyTitleKeys it) q = objGet it q := by
  unfold applyTitleKeys
  have main : ∀ (ks : List Str) (r : Rec), (∀ k ∈ ks, k ≠ q) →
      objGet (ks.foldl (fun it k =>
        if (objGetD it k).truthy then
          objSet it k (JSVal.vstr (applyTitleCase (objGetD it k).toStr))
        else it) r) q = objGet r q := by
    intro ks
    induction ks with
    | nil => intro r _; rfl
    | cons k rest ih =>
      intro r hr
      simp only [List.foldl_cons]
      rw [ih _ (fun x hx => hr x (List.mem_cons_of_mem _ hx))]
      split
      · rw [objGet_objSet, if_neg (fun e => hr k (List.mem_cons_self _ _) e.symm)]
      · rfl
  exact main titleKeys it (fun k hk e => hq (e ▸ hk))

theorem priceKey_head (c : Str) : (priceKey c).head? = some 'P' := by
  simp [priceKey]

theorem priceKey_ne_of_head {q : Str} (c : Str) (h : q.head? ≠ some 'P') :
    priceKey c ≠ q := by
  intro e
  exact h (e ▸ priceKey_head c)

/-- The id column of a freshly constructed primary record whose normalized
row had a falsy Menu Item Id: it is the auto-generated id of the row index.
None of the later steps (price drop, title casing, price split, drive-link
rewrite) touches the id column. -/
theorem primBase_id (opts : TransformOptions) (i : Nat) (row : Rec)
    (hid : (objGetD row kItemId).truthy = false) :
    objGet (primBase opts i row) kItemId = some (JSVal.vstr (autoGenId i)) := by
  have hc : ¬ (objGetD row kItemId).truthy = true := by simp [hid]
  simp only [primBase, if_pos hc]
  apply objGet_ite
  · rw [applyTitleKeys_get _ _ (by decide),
      objGet_objDel _ _ _ (by decide : kItemId ≠ kPrice), objGet_objSet, if_pos rfl]
  · rw [objGet_objDel _ _ _ (by decide : kItemId ≠ kPrice), objGet_objSet, if_pos rfl]

theorem primPrice_fst_get (opts : TransformOptions) (row n3 : Rec) (q : Str)
    (h : ∀ c : Str, q ≠ priceKey c) :
    objGet (primPrice opts row n3).1 q = objGet n3 q := by
  unfold primPrice
  split
  · split
    · split
      · simp only
        rw [objGet_objSet, if_neg (h _)]
      · rfl
    · rfl
  · rfl

theorem primImage_get (n4 : Rec) (q : Str) (h : q ≠ kImageUrl) :
    objGet (primImage n4) q = objGet n4 q := by
  unfold primImage
  split
  · dsimp only
    split
    · rw [objGet_objSet, if_neg h]
    · rfl
  · rfl

/-- The id column of a freshly constructed primary record whose normalized
row had a falsy Menu Item Id: it is the auto-generated id of the row index.
None of the later steps (price drop, title casing, price split, drive-link
rewrite) touches the id column. -/
theorem processPrimary_id (opts : TransformOptions) (i : Nat) (row : Rec)
    (hid : (objGetD row kItemId).truthy = false) :
    objGet (processPrimary opts i row).1 kItemId
      = some (JSVal.vstr (autoGenId i)) := by
  simp only [processPrimary]
  rw [primImage_get _ _ (by decide : kItemId ≠ kImageUrl),
    primPrice_fst_get _ _ _ _ (fun c => (priceKey_ne_of_head c (by decide)).symm),
    primBase_id _ _ _ hid]

end ExcelService
namespace ExcelService

/-- Claim C5: a dataset whose first row has a falsy Menu Item Id and an
effective name starting with the translation marker, processed with Arabic
extraction enabled, contributes exactly one orphan-translation anomaly (and
no record, no currency, no Arabic count) to the loop state; the anomaly
message references display row 2, the 1-indexed sheet position of the first
data row below the header row; the rest of the run continues from that
state, so the whole transformation carries exactly this one anomaly for that
row and produces no record from it. -/
theorem claim_C5 (opts : TransformOptions) (r : Rec) (rest : List Rec)
    (hext : opts.extractArabic = true)
    (hid : (objGetD (normalizeRow r) kItemId).truthy = false)
    (hmark : arMarker.isPrefixOf (itemNameOf (normalizeRow r)).toStr = true) :
    runLoop opts 0 ⟨[], [], [], 0⟩ (r :: rest)
      = runLoop opts 1 ⟨[], [orphanMsg 0 (itemNameOf (normalizeRow r))], [], 0⟩ rest
    ∧ orphanMsg 0 (itemNameOf (normalizeRow r))
      = (("Orphan Arabic translation found at row ").data) ++ (("2").data)
        ++ ((": ").data) ++ [ '"' ] ++ (itemNameOf (normalizeRow r)).toStr ++ [ '"' ]
    ∧ (transformMenuData (r :: rest) opts).stats.anomalies
      = (runLoop opts 1 ⟨[], [orphanMsg 0 (itemNameOf (normalizeRow r))], [], 0⟩ rest).anomalies
    ∧ (transformMenuData (r :: rest) opts).data.length
      = (runLoop opts 1 ⟨[], [orphanMsg 0 (itemNameOf (normalizeRow r))], [], 0⟩ rest).records.length := by
  have htr : isTransRow (normalizeRow r) = true := by
    simp [isTransRow, hid, hmark]
  have hstep : loopStep opts 0 ⟨[], [], [], 0⟩ r
      = ⟨[], [orphanMsg 0 (itemNameOf (normalizeRow r))], [], 0⟩ := by
    simp [loopStep, htr, hext]
  have hrun : runLoop opts 0 ⟨[], [], [], 0⟩ (r :: rest)
      = runLoop opts 1 ⟨[], [orphanMsg 0 (itemNameOf (normalizeRow r))], [], 0⟩ rest := by
    show runLoop opts 1 (loopStep opts 0 ⟨[], [], [], 0⟩ r) rest = _
    rw [hstep]
  refine ⟨hrun, ?_, ?_, ?_⟩
  · simp only [orphanMsg, show natToStr (0 + 2) = (("2").data) from by decide]
  · have hne : r :: rest ≠ [] := by simp
    simp only [transformMenuData, if_neg hne, hrun]
  · have hne : r :: rest ≠ [] := by simp
    simp only [transformMenuData, if_neg hne, hrun, List.length_map]

/-- Witness input for claim C5: the very first row carries only a marked
Arabic name and no id. -/
def cexRow5 : Rec := [((("Menu Item Name").data), JSVal.vstr (("[ar-ae]: دجاج").data))]

/-- Options with Arabic extraction enabled. -/
def opts5 : TransformOptions := ⟨false, true, false, false, false, false, false, false⟩

theorem claim_C5_witness :
    (opts5.extractArabic = true
      ∧ (objGetD (normalizeRow cexRow5) kItemId).truthy = false
      ∧ arMarker.isPrefixOf (itemNameOf (normalizeRow cexRow5)).toStr = true)
    ∧ (runLoop opts5 0 ⟨[], [], [], 0⟩ (cexRow5 :: [])
        = runLoop opts5 1 ⟨[], [orphanMsg 0 (itemNameOf (normalizeRow cexRow5))], [], 0⟩ []
      ∧ orphanMsg 0 (itemNameOf (normalizeRow cexRow5))
        = (("Orphan Arabic translation found at row ").data) ++ (("2").data)
          ++ ((": ").data) ++ [ '"' ] ++ (itemNameOf (normalizeRow cexRow5)).toStr ++ [ '"' ]
      ∧ (transformMenuData (cexRow5 :: []) opts5).stats.anomalies
        = (runLoop opts5 1 ⟨[], [orphanMsg 0 (itemNameOf (normalizeRow cexRow5))], [], 0⟩ []).anomalies
      ∧ (transformMenuData (cexRow5 :: []) opts5).data.length
        = (runLoop opts5 1 ⟨[], [orphanMsg 0 (itemNameOf (normalizeRow cexRow5))], [], 0⟩ []).records.length) :=
  ⟨⟨by decide, by decide, by decide⟩,
    claim_C5 opts5 cexRow5 [] (by decide) (by decide) (by decide)⟩

/-- Claim C10: with Arabic extraction disabled, a first row with a falsy id
and a marker-prefixed name is not treated as a translation continuation:
the loop builds a standalone primary record from it carrying the
auto-generated id of row 0, and no orphan anomaly is emitted even though no
preceding primary record exists. -/
theorem claim_C10 (opts : TransformOptions) (r : Rec) (rest : List Rec)
    (hext : opts.extractArabic = false)
    (hid : (objGetD (normalizeRow r) kItemId).truthy = false)
    (hmark : arMarker.isPrefixOf (itemNameOf (normalizeRow r)).toStr = true) :
    runLoop opts 0 ⟨[], [], [], 0⟩ (r :: rest)
      = runLoop opts 1 ⟨[(processPrimary opts 0 (normalizeRow r)).1], [],
          (match (processPrimary opts 0 (normalizeRow r)).2 with
            | some c => [c]
            | none => []), 0⟩ rest
    ∧ objGet (processPrimary opts 0 (normalizeRow r)).1 kItemId
        = some (JSVal.vstr (autoGenId 0)) := by
  have hnm : (itemNameOf (normalizeRow r)).truthy = true := by
    by_cases h : (itemNameOf (normalizeRow r)).truthy = true
    · exact h
    · exfalso
      have he := itemName_untruthy (normalizeRow r) (by simpa using h)
      rw [he] at hmark
      exact absurd hmark (by decide)
  have hstep : loopStep opts 0 ⟨[], [], [], 0⟩ r
      = ⟨[(processPrimary opts 0 (normalizeRow r)).1], [],
          (match (processPrimary opts 0 (normalizeRow r)).2 with
            | some c => [c]
            | none => []), 0⟩ := by
    simp only [loopStep, hext, Bool.and_false, Bool.false_eq_true, if_false]
    rw [if_pos (Or.inr hnm)]
    rcases h2 : (processPrimary opts 0 (normalizeRow r)).2 with _ | c <;>
      simp [currAdd, h2]
  constructor
  · show runLoop opts 1 (loopStep opts 0 ⟨[], [], [], 0⟩ r) rest = _
    rw [hstep]
  · exact processPrimary_id opts 0 (normalizeRow r) hid

/-- Options with Arabic extraction disabled. -/
def opts10 : TransformOptions := ⟨false, false, false, false, false, false, false, false⟩

theorem claim_C10_witness :
    (opts10.extractArabic = false
      ∧ (objGetD (normalizeRow cexRow5) kItemId).truthy = false
      ∧ arMarker.isPrefixOf (itemNameOf (normalizeRow cexRow5)).toStr = true)
    ∧ (runLoop opts10 0 ⟨[], [], [], 0⟩ (cexRow5 :: [])
        = runLoop opts10 1 ⟨[(processPrimary opts10 0 (normalizeRow cexRow5)).1], [],
            (match (processPrimary opts10 0 (normalizeRow cexRow5)).2 with
              | some c => [c]
              | none => []), 0⟩ []
      ∧ objGet (processPrimary opts10 0 (normalizeRow cexRow5)).1 kItemId
          = some (JSVal.vstr (autoGenId 0))) :=
  ⟨⟨by decide, by decide, by decide⟩,
    claim_C10 opts10 cexRow5 [] (by decide) (by decide) (by decide)⟩

end ExcelService
namespace ExcelService

theorem applyTransRow_id (row cur : Rec) :
    objGet (applyTransRow row cur) kItemId = objGet cur kItemId := by
  unfold applyTransRow
  dsimp only
  rw [peelGet _ _ _ _ _ (by decide : kItemId ≠ kDescAr)]
  split
  · rw [objGet_objSet, if_neg (by decide : kItemId ≠ kModGroupAr)]
  · split
    · rw [objGet_objSet, if_neg (by decide : kItemId ≠ kModNameAr)]
    · rw [objGet_objSet, if_neg (by decide : kItemId ≠ kNameAr)]

theorem updateLast_map_id (f : Rec → Rec)
    (h : ∀ x, objGet (f x) kItemId = objGet x kItemId) :
    ∀ l : List Rec, (updateLast f l).map (fun rec => objGet rec kItemId)
      = l.map (fun rec => objGet rec kItemId) := by
  intro l
  induction l with
  | nil => rfl
  | cons r rest ih =>
    cases rest with
    | nil => simp [updateLast, h]
    | cons r2 rest2 =>
      simp only [updateLast, List.map_cons] at ih ⊢
      rw [ih]

/-- Whether a row, on its own, produces a primary record in the loop (with
every row lacking an id this depends only on the row and the options, not on
the loop state). -/
def isPrimaryRow (opts : TransformOptions) (r : Rec) : Bool :=
  let row := normalizeRow r
  !(isTransRow row && opts.extractArabic)
    && ((objGetD row kItemId).truthy || (itemNameOf row).truthy)

/-- The 0-based input indexes of the rows that produce primary records,
starting the count at i. -/
def primaryIdxsFrom (opts : TransformOptions) : Nat → List Rec → List Nat
  | _, [] => []
  | i, r :: rest =>
    if isPrimaryRow opts r then i :: primaryIdxsFrom opts (i + 1) rest
    else primaryIdxsFrom opts (i + 1) rest

theorem primaryIdxs_ge (opts : TransformOptions) :
    ∀ (rows : List Rec) (i : Nat) (j : Nat),
      j ∈ primaryIdxsFrom opts i rows → i ≤ j := by
  intro rows
  induction rows with
  | nil => intro i j h; simp [primaryIdxsFrom] at h
  | cons r rest ih =>
    intro i j h
    simp only [primaryIdxsFrom] at h
    split at h
    · rcases List.mem_cons.1 h with h1 | h1
      · omega
      · have := ih (i + 1) j h1; omega
    · have := ih (i + 1) j h; omega

theorem primaryIdxs_nodup (opts : TransformOptions) :
    ∀ (rows : List Rec) (i : Nat), (primaryIdxsFrom opts i rows).Nodup := by
  intro rows
  induction rows with
  | nil => intro i; simp [primaryIdxsFrom]
  | cons r rest ih =>
    intro i
    simp only [primaryIdxsFrom]
    split
    · refine List.nodup_cons.2 ⟨fun hmem => ?_, ih (i + 1)⟩
      have := primaryIdxs_ge opts rest (i + 1) i hmem
      omega
    · exact ih (i + 1)

theorem primaryIdxs_all (opts : TransformOptions) :
    ∀ (rows : List Rec) (i : Nat), (∀ r ∈ rows, isPrimaryRow opts r = true) →
      primaryIdxsFrom opts i rows = List.range' i rows.length := by
  intro rows
  induction rows with
  | nil => intro i _; rfl
  | cons r rest ih =>
    intro i hall
    simp only [primaryIdxsFrom, hall r (List.mem_cons_self _ _), if_true,
      List.length_cons, List.range']
    rw [ih (i + 1) (fun x hx => hall x (List.mem_cons_of_mem _ hx))]

theorem autoGenId_inj {i j : Nat} (h : autoGenId i = autoGenId j) : i = j := by
  unfold autoGenId at h
  exact natToStr_inj _ _ (List.append_cancel_left h)

/-- Ids of the records accumulated by the row loop, when every row's
normalized id is falsy: the state's ids followed by one auto-generated id
per primary row, indexed by input position. -/
theorem runLoop_ids (opts : TransformOptions) :
    ∀ (rows : List Rec) (i : Nat) (st : LoopState),
      (∀ r ∈ rows, (objGetD (normalizeRow r) kItemId).truthy = false) →
      (runLoop opts i st rows).records.map (fun rec => objGet rec kItemId)
        = st.records.map (fun rec => objGet rec kItemId)
          ++ (primaryIdxsFrom opts i rows).map
              (fun j => some (JSVal.vstr (autoGenId j))) := by
  intro rows
  induction rows with
  | nil => intro i st _; simp [runLoop, primaryIdxsFrom]
  | cons r rest ih =>
    intro i st hall
    have hid := hall r (List.mem_cons_self _ _)
    have htail := fun x hx => hall x (List.mem_cons_of_mem _ hx)
    show (runLoop opts (i + 1) (loopStep opts i st r) rest).records.map _ = _
    rw [ih (i + 1) _ htail]
    by_cases h1 : (isTransRow (normalizeRow r) && opts.extractArabic) = true
    · have hprim : isPrimaryRow opts r = false := by
        simp [isPrimaryRow, h1]
      have hrec : (loopStep opts i st r).records.map (fun rec => objGet rec kItemId)
          = st.records.map (fun rec => objGet rec kItemId) := by
        simp only [loopStep, if_pos h1]
        split
        · exact updateLast_map_id _ (applyTransRow_id (normalizeRow r)) _
        · rfl
      rw [hrec]
      simp [primaryIdxsFrom, hprim]
    · by_cases h2 : ((objGetD (normalizeRow r) kItemId).truthy = true
          ∨ (itemNameOf (normalizeRow r)).truthy = true)
      · have hprim : isPrimaryRow opts r = true := by
          rcases h2 with h2 | h2 <;> simp [isPrimaryRow, h1, h2]
        have hrec : (loopStep opts i st r).records
            = st.records ++ [(processPrimary opts i (normalizeRow r)).1] := by
          simp only [loopStep, h1, Bool.false_eq_true, if_false]
          rw [if_pos h2]
        rw [hrec]
        simp only [List.map_append, List.map_cons, List.map_nil,
          processPrimary_id opts i (normalizeRow r) hid,
          primaryIdxsFrom, hprim, if_true, List.append_assoc,
          List.singleton_append]
      · have hA : (objGetD (normalizeRow r) kItemId).truthy = false := by
          rcases Bool.eq_false_or_eq_true ((objGetD (normalizeRow r) kItemId).truthy) with h | h
          · exact absurd (Or.inl h) h2
          · exact h
        have hB : (itemNameOf (normalizeRow r)).truthy = false := by
          rcases Bool.eq_false_or_eq_true ((itemNameOf (normalizeRow r)).truthy) with h | h
          · exact absurd (Or.inr h) h2
          · exact h
        have hprim : isPrimaryRow opts r = false := by
          simp [isPrimaryRow, hA, hB]
        have hrec : (loopStep opts i st r).records = st.records := by
          simp only [loopStep, h1, Bool.false_eq_true, if_false]
          rw [if_neg h2]
        rw [hrec]
        simp [primaryIdxsFrom, hprim]

end ExcelService
namespace ExcelService

theorem reindexItem_get_mem (cols : List Str) (item : Rec) (q : Str)
    (hq : q ∈ cols) (hq2 : q ≠ kImageSrc) :
    objGet (reindexItem cols item) q
      = some ((objGet item q).getD (JSVal.vstr [])) := by
  unfold reindexItem
  dsimp only
  rw [objGet_objSet, if_neg hq2, foldl_objSet_lookup, if_pos hq]
  rcases objGet item q with _ | v <;> rfl

theorem reindexItem_get_nomem (cols : List Str) (item : Rec) (q : Str)
    (hq : ¬ q ∈ cols) (hq2 : q ≠ kImageSrc) :
    objGet (reindexItem cols item) q = none := by
  unfold reindexItem
  dsimp only
  rw [objGet_objSet, if_neg hq2, foldl_objSet_lookup, if_neg hq]
  rfl

theorem kItemId_mem_finalOrder (cs : List Str) : kItemId ∈ finalOrder cs := by
  unfold finalOrder
  exact List.mem_append_left _ (List.mem_append_left _ (List.mem_cons_self _ _))

/-- Claim C8 (amended): over a dataset in which every row lacks a Menu Item
Id, the output ids are exactly one auto-generated id per primary row, equal
to auto-gen-i for the row's 0-based input index i, in input order; the ids
are pairwise distinct; and when every row is primary (non-empty effective
name, not consumed as a translation row) the ids are exactly
auto-gen-0 .. auto-gen-(N-1). -/
theorem claim_C8_amended (opts : TransformOptions) (rows : List Rec)
    (hall : ∀ r ∈ rows, (objGetD (normalizeRow r) kItemId).truthy = false) :
    ((transformMenuData rows opts).data.map (fun rec => objGet rec kItemId)
      = (primaryIdxsFrom opts 0 rows).map (fun j => some (JSVal.vstr (autoGenId j))))
    ∧ ((transformMenuData rows opts).data.map (fun rec => objGet rec kItemId)).Nodup
    ∧ ((∀ r ∈ rows, isPrimaryRow opts r = true) →
        (transformMenuData rows opts).data.map (fun rec => objGet rec kItemId)
          = (List.range rows.length).map (fun j => some (JSVal.vstr (autoGenId j)))) := by
  have hmain : (transformMenuData rows opts).data.map (fun rec => objGet rec kItemId)
      = (primaryIdxsFrom opts 0 rows).map (fun j => some (JSVal.vstr (autoGenId j))) := by
    rcases em (rows = []) with he | he
    · subst he
      simp [transformMenuData, primaryIdxsFrom]
    · simp only [transformMenuData, if_neg he]
      rw [List.map_map]
      have hcomp : ∀ rec : Rec,
          ((fun rec => objGet rec kItemId) ∘ reindexItem
            (finalOrder (sortStr (runLoop opts 0 ⟨[], [], [], 0⟩ rows).currencies))) rec
          = some ((objGet rec kItemId).getD (JSVal.vstr [])) := by
        intro rec
        exact reindexItem_get_mem _ rec kItemId (kItemId_mem_finalOrder _) (by decide)
      rw [List.map_congr_left (fun rec _ => hcomp rec)]
      have hout := runLoop_ids opts rows 0 ⟨[], [], [], 0⟩ hall
      simp only [List.map_nil, List.nil_append] at hout
      have : (runLoop opts 0 ⟨[], [], [], 0⟩ rows).records.map
          (fun rec => some ((objGet rec kItemId).getD (JSVal.vstr [])))
          = ((runLoop opts 0 ⟨[], [], [], 0⟩ rows).records.map
              (fun rec => objGet rec kItemId)).map
            (fun o => some (o.getD (JSVal.vstr []))) := by
        rw [List.map_map]
        rfl
      rw [this, hout, List.map_map]
      rfl
  refine ⟨hmain, ?_, ?_⟩
  · rw [hmain]
    refine List.Nodup.map ?_ (primaryIdxs_nodup opts rows 0)
    intro a b h
    simp only [Option.some.injEq, JSVal.vstr.injEq] at h
    exact autoGenId_inj h
  · intro hprim
    rw [hmain, primaryIdxs_all opts rows 0 hprim, List.range_eq_range']

/-- Counterexample to claim C8 as stated: a one-row dataset whose single row
is empty (no id, no name) produces no record at all, so no id auto-gen-0 is
assigned, although the claim requires the ids auto-gen-0 .. auto-gen-(N-1)
for the N rows lacking an id. -/
theorem claim_C8_counterexample :
    (∀ r ∈ [([] : Rec)], (objGetD (normalizeRow r) kItemId).truthy = false)
    ∧ (transformMenuData [([] : Rec)] opts10).data.map (fun rec => objGet rec kItemId) = []
    ∧ ([] : List (Option JSVal)) ≠ [some (JSVal.vstr (autoGenId 0))] := by
  refine ⟨by decide, by decide, by decide⟩

/-- Witness rows for the amended claim C8: a named row, an empty (skipped)
row, and another named row, all lacking ids. -/
def rows8 : List Rec :=
  [[((("Menu Item Name").data), JSVal.vstr (("Apple").data))],
   [],
   [((("Menu Item Name").data), JSVal.vstr (("Beta").data))]]

theorem claim_C8_witness :
    (∀ r ∈ rows8, (objGetD (normalizeRow r) kItemId).truthy = false)
    ∧ (((transformMenuData rows8 opts10).data.map (fun rec => objGet rec kItemId)
        = (primaryIdxsFrom opts10 0 rows8).map (fun j => some (JSVal.vstr (autoGenId j))))
      ∧ ((transformMenuData rows8 opts10).data.map (fun rec => objGet rec kItemId)).Nodup
      ∧ ((∀ r ∈ rows8, isPrimaryRow opts10 r = true) →
          (transformMenuData rows8 opts10).data.map (fun rec => objGet rec kItemId)
            = (List.range rows8.length).map (fun j => some (JSVal.vstr (autoGenId j)))))
    ∧ (primaryIdxsFrom opts10 0 rows8 = [0, 2]) :=
  ⟨by decide, claim_C8_amended opts10 rows8 (by decide), by decide⟩

end ExcelService
namespace ExcelService

theorem kPrice_not_mem_finalOrder (cs : List Str) : ¬ kPrice ∈ finalOrder cs := by
  unfold finalOrder
  intro h
  rcases List.mem_append.1 h with h1 | h1
  · rcases List.mem_append.1 h1 with h2 | h2
    · exact absurd h2 (by decide)
    · obtain ⟨c, _, he⟩ := List.mem_map.1 h2
      have hl := congrArg List.length he
      simp [priceKey, kPrice] at hl
  · exact absurd h1 (by decide)

/-- Claim C6 part 3 helper: every output record of the transformation lacks
the raw Price column, because the final reindexing keeps only the fixed
column list, which never contains Price. -/
theorem transform_no_price (rawData : List Rec) (opts : TransformOptions) :
    ∀ rec ∈ (transformMenuData rawData opts).data, objGet rec kPrice = none := by
  intro rec hrec
  rcases em (rawData = []) with he | he
  · subst he
    simp [transformMenuData] at hrec
  · simp only [transformMenuData, if_neg he] at hrec
    obtain ⟨item, _, hre⟩ := List.mem_map.1 hrec
    rw [← hre]
    exact reindexItem_get_nomem _ item kPrice (kPrice_not_mem_finalOrder _) (by decide)

/-- The first C6 input row: a primary row with Price AED 25.50. -/
def rowC6a : Rec :=
  [((("Menu Item Name").data), JSVal.vstr (("Burger").data)),
   ((("Price").data), JSVal.vstr (("AED 25.50").data))]

/-- The second C6 input row: a primary row with Price 30, no currency
token. -/
def rowC6b : Rec :=
  [((("Menu Item Name").data), JSVal.vstr (("Burger").data)),
   ((("Price").data), JSVal.vstr (("30").data))]

/-- Options with currency splitting enabled. -/
def opts6 : TransformOptions := ⟨false, false, true, false, false, false, false, false⟩

theorem parsePrice_c6a :
    parsePrice ((("AED 25.50").data)) = (some (("AED").data), some (some (25.5 : ℚ))) := by
  have hfc : findCurrency (jsTrim ((("AED 25.50").data))) = some (("AED").data) := by decide
  have hfn : findNumRun (jsTrim ((("AED 25.50").data))) = some (("25.50").data) := by decide
  have hrf : removeFirst [','] ((("25.50").data)) = (("25.50").data) := by decide
  have hjp : jsParseFloat ((("25.50").data)) = some (25.5 : ℚ) := by
    have e1 : ((("25.50").data)).takeWhile Char.isDigit = (("25").data) := by decide
    simp only [jsParseFloat, e1]
    rw [show ((("25.50").data)).drop ((("25").data)).length = ((".50").data) from by decide]
    rw [if_pos (by decide : ((((".50").data)).head? = some '.'))]
    rw [show (((((".50").data)).drop 1).takeWhile Char.isDigit) = (("50").data) from by decide]
    rw [if_neg (by decide : ¬ ((("25").data) = [] ∧ (("50").data) = []))]
    rw [show digitsToNat ((("25").data)) = 25 from by decide,
      show digitsToNat ((("50").data)) = 50 from by decide,
      show ((("50").data)).length = 2 from by decide]
    norm_num
  simp only [parsePrice]
  rw [if_neg (by decide : ¬ ((("AED 25.50").data) = [])), hfc, hfn]
  simp only [hrf, hjp]
  rw [show jsToUpper (("AED").data) = (("AED").data) from by decide]

theorem parsePrice_c6b :
    parsePrice ((("30").data)) = (some (("AED").data), some (some (30 : ℚ))) := by
  have hfn : findNumRun (jsTrim ((("30").data))) = some (("30").data) := by decide
  have hjp : jsParseFloat ((("30").data)) = some (30 : ℚ) := by
    have e1 : ((("30").data)).takeWhile Char.isDigit = (("30").data) := by decide
    simp only [jsParseFloat, e1]
    rw [show ((("30").data)).drop ((("30").data)).length = ([] : Str) from by decide]
    rw [if_neg (by decide : ¬ ((([] : Str)).head? = some '.'))]
    rw [if_neg (by decide : ¬ ((("30").data) = [] ∧ ([] : Str) = []))]
    rw [show digitsToNat ((("30").data)) = 30 from by decide,
      show digitsToNat ([] : Str) = 0 from by decide,
      show (([] : Str)).length = 0 from by decide]
    norm_num
  simp only [parsePrice]
  rw [if_neg (by decide : ¬ ((("30").data) = [])),
    show findCurrency (jsTrim ((("30").data))) = none from by decide, hfn]
  dsimp only
  have hrf : removeFirst [','] ((['3', '0'] : Str)) = ((['3', '0'] : Str)) := by decide
  have hjp2 : jsParseFloat ((['3', '0'] : Str)) = some (30 : ℚ) := hjp
  rw [hrf, hjp2]

end ExcelService
namespace ExcelService

theorem c6_row (row : Rec) (pv : ℚ)
    (hpp : parsePrice ((objGetD (normalizeRow row) kPrice).toStr)
      = (some (("AED").data), some (some pv)))
    (htr : isTransRow (normalizeRow row) = false)
    (hnm : (itemNameOf (normalizeRow row)).truthy = true)
    (hPt : (objGetD (normalizeRow row) kPrice).truthy = true) :
    (transformMenuData [row] opts6).data.map
        (fun rec => (objGet rec (priceKey (("AED").data)), objGet rec kPrice))
      = [(some (JSVal.vnum pv), none)] := by
  have hsplit : opts6.splitPrice = true ∧ (objGetD (normalizeRow row) kPrice).truthy = true :=
    ⟨by decide, hPt⟩
  have hpr : primPrice opts6 (normalizeRow row) (primBase opts6 0 (normalizeRow row))
      = (objSet (primBase opts6 0 (normalizeRow row)) (priceKey (("AED").data))
          (JSVal.vnum pv), some (("AED").data)) := by
    unfold primPrice
    rw [if_pos hsplit, hpp]
    dsimp only
    rw [if_pos (by decide : (("AED").data) ≠ [])]
    rfl
  have hpr2 : (processPrimary opts6 0 (normalizeRow row)).2 = some (("AED").data) := by
    simp only [processPrimary]
    rw [hpr]
  have hstep : runLoop opts6 0 ⟨[], [], [], 0⟩ [row]
      = ⟨[(processPrimary opts6 0 (normalizeRow row)).1], [], [(("AED").data)], 0⟩ := by
    show runLoop opts6 1 (loopStep opts6 0 ⟨[], [], [], 0⟩ row) [] = _
    have hls : loopStep opts6 0 ⟨[], [], [], 0⟩ row
        = ⟨[(processPrimary opts6 0 (normalizeRow row)).1], [], [(("AED").data)], 0⟩ := by
      simp only [loopStep, htr, Bool.false_and, Bool.false_eq_true, if_false]
      rw [if_pos (Or.inr hnm), hpr2]
      simp [currAdd]
    rw [hls]
    rfl
  have hval : objGet (processPrimary opts6 0 (normalizeRow row)).1 (priceKey (("AED").data))
      = some (JSVal.vnum pv) := by
    simp only [processPrimary]
    rw [primImage_get _ _ (priceKey_ne_of_head _ (by decide)), hpr]
    dsimp only
    rw [objGet_objSet, if_pos rfl]
  have hne : ([row] : List Rec) ≠ [] := by simp
  simp only [transformMenuData, if_neg hne, hstep]
  rw [show sortStr [(("AED").data)] = [(("AED").data)] from by decide]
  simp only [List.map_cons, List.map_nil]
  rw [reindexItem_get_mem _ _ _ (by decide) (by decide), hval,
    reindexItem_get_nomem _ _ _ (kPrice_not_mem_finalOrder _) (by decide)]
  rfl

/-- Claim C6: with currency splitting enabled, the row with raw Price AED
25.50 yields the record value 25.50 under the split column Price[AED] and no
surviving Price column; the row with raw Price 30 (no currency token)
defaults to Price[AED] = 30; and in every run, with any options, every
output record lacks the raw Price column. -/
theorem claim_C6 :
    ((transformMenuData [rowC6a] opts6).data.map
        (fun rec => (objGet rec (priceKey (("AED").data)), objGet rec kPrice))
      = [(some (JSVal.vnum (25.5 : ℚ)), none)])
    ∧ ((transformMenuData [rowC6b] opts6).data.map
        (fun rec => (objGet rec (priceKey (("AED").data)), objGet rec kPrice))
      = [(some (JSVal.vnum (30 : ℚ)), none)])
    ∧ (∀ (rawData : List Rec) (opts : TransformOptions),
        ∀ rec ∈ (transformMenuData rawData opts).data, objGet rec kPrice = none) := by
  refine ⟨?_, ?_, fun rawData opts => transform_no_price rawData opts⟩
  · refine c6_row rowC6a (25.5 : ℚ) ?_ (by decide) (by decide) (by decide)
    rw [show (objGetD (normalizeRow rowC6a) kPrice).toStr = (("AED 25.50").data) from by decide]
    exact parsePrice_c6a
  · refine c6_row rowC6b (30 : ℚ) ?_ (by decide) (by decide) (by decide)
    rw [show (objGetD (normalizeRow rowC6b) kPrice).toStr = (("30").data) from by decide]
    exact parsePrice_c6b

theorem claim_C6_witness :
    objGet ((transformMenuData [rowC6b] opts6).data.head (by decide)) kPrice = none :=
  claim_C6.2.2 [rowC6b] opts6 _ (List.head_mem _)

end ExcelService
theorem trimRight_eq_rdrop (s : Str) : trimRightStr s = List.rdropWhile isWsChar s := rfl

theorem trimLeft_len_le (s : Str) : (trimLeftStr s).length ≤ s.length :=
  (List.dropWhile_suffix isWsChar).length_le

theorem trimRight_len_le (s : Str) : (trimRightStr s).length ≤ s.length := by
  rw [trimRight_eq_rdrop]
  exact (List.rdropWhile_prefix isWsChar s).length_le

theorem jsTrim_eq_self_parts (s : Str) (h : jsTrim s = s) :
    trimLeftStr s = s ∧ trimRightStr s = s := by
  have h1 : (jsTrim s).length ≤ (trimLeftStr s).length := trimRight_len_le _
  have h2 : (trimLeftStr s).length ≤ s.length := trimLeft_len_le s
  have h3 : (trimLeftStr s).length = s.length := by
    rw [h] at h1; omega
  have h4 : trimLeftStr s = s :=
    (List.dropWhile_suffix isWsChar).eq_of_length h3
  refine ⟨h4, ?_⟩
  have := h
  unfold jsTrim at this
  rw [h4] at this
  exact this

theorem head_not_ws_of_trimLeft (c : Char) (t : Str)
    (h : trimLeftStr (c :: t) = c :: t) : isWsChar c = false := by
  by_contra hc
  have hc2 : isWsChar c = true := by
    rcases Bool.eq_false_or_eq_true (isWsChar c) with h1 | h1
    · exact h1
    · exact absurd h1 hc
  unfold trimLeftStr at h
  rw [List.dropWhile_cons, if_pos hc2] at h
  have := congrArg List.length h
  have hle : (t.dropWhile isWsChar).length ≤ t.length :=
    (List.dropWhile_suffix isWsChar).length_le
  simp at this
  omega

theorem trimRight_append_ws (b sp : Str) (hsp : ∀ c ∈ sp, isWsChar c = true) :
    trimRightStr (b ++ sp) = trimRightStr b := by
  rw [trimRight_eq_rdrop, trimRight_eq_rdrop]
  induction sp using List.reverseRecOn with
  | nil => rw [List.append_nil]
  | append_singleton sp0 x ih =>
    rw [← List.append_assoc,
      List.rdropWhile_concat_pos _ _ x (hsp x (List.mem_append_right _ (List.mem_singleton_self x)))]
    exact ih (fun c hc => hsp c (List.mem_append_left _ hc))

theorem jsTrim_append_ws (b sp : Str) (hb : jsTrim b = b) (hbne : b ≠ [])
    (hsp : ∀ c ∈ sp, isWsChar c = true) : jsTrim (b ++ sp) = b := by
  obtain ⟨hL, hR⟩ := jsTrim_eq_self_parts b hb
  rcases b with _ | ⟨c, t⟩
  · exact absurd rfl hbne
  · have hcw : isWsChar c = false := head_not_ws_of_trimLeft c t hL
    unfold jsTrim
    have hTL : trimLeftStr ((c :: t) ++ sp) = (c :: t) ++ sp := by
      unfold trimLeftStr
      rw [List.cons_append, List.dropWhile_cons, if_neg (by simp [hcw])]
    rw [hTL, trimRight_append_ws _ _ hsp, hR]

theorem prefix_head_eq (p t : Str) (c : Char) (hp : p.head? = some c) (h : p <+: t) :
    t.head? = some c := by
  obtain ⟨r, hr⟩ := h
  rcases p with _ | ⟨x, xs⟩
  · simp at hp
  · simp only [List.head?] at hp
    rw [← hr]
    simpa using hp

theorem not_suffix_of_last_ne (u s : Str) (c d : Char)
    (hu : u.reverse.head? = some d) (hs : s.reverse.head? = some c) (hne : d ≠ c) :
    ¬ u <:+ s := by
  intro h
  have hp : u.reverse <+: s.reverse := by
    rw [List.reverse_prefix]
    exact h
  have h2 := prefix_head_eq _ _ d hu hp
  rw [hs] at h2
  injection h2 with h3
  exact hne h3.symm

theorem isSuffixOf_true_iff (u s : Str) : u.isSuffixOf s = true ↔ u <:+ s := by
  unfold List.isSuffixOf
  rw [List.isPrefixOf_iff_prefix, List.reverse_prefix]
namespace ExcelService

theorem trySuffix_some (s t : Str) (op cl : Char) (l : Str)
    (hne : t ≠ []) (hs : s = t ++ (op :: l ++ [cl])) :
    trySuffix s op cl l = some (jsTrim t, l) := by
  have hsuf : (op :: l ++ [cl]) <:+ s := ⟨t, hs.symm⟩
  have hlen : (op :: l ++ [cl]).length < s.length := by
    subst hs
    have : 0 < t.length := List.length_pos.2 hne
    simp only [List.length_append, List.length_cons]
    omega
  unfold trySuffix
  rw [if_pos ⟨(isSuffixOf_true_iff _ _).2 hsuf, hlen⟩]
  have harith : s.length - (op :: l ++ [cl]).length = t.length := by
    rw [hs]
    simp only [List.length_append, List.length_cons]
    omega
  rw [harith, hs, List.take_left]

theorem trySuffix_none (s : Str) (op cl : Char) (l : Str)
    (h : ¬ (op :: l ++ [cl]) <:+ s) : trySuffix s op cl l = none := by
  unfold trySuffix
  rw [if_neg]
  intro hc
  exact h ((isSuffixOf_true_iff _ _).1 hc.1)

theorem suffix_excl (s u v : Str) (hnp1 : ¬ u.reverse <+: v.reverse)
    (hnp2 : ¬ v.reverse <+: u.reverse) (hu : u <:+ s) : ¬ v <:+ s := by
  intro hv
  have h1 : u.reverse <+: s.reverse := List.reverse_prefix.2 hu
  have h2 : v.reverse <+: s.reverse := List.reverse_prefix.2 hv
  rcases List.prefix_or_prefix_of_prefix h1 h2 with h | h
  · exact hnp1 h
  · exact hnp2 h

theorem snoc_reverse_head (w : Str) (c : Char) :
    (w ++ [c]).reverse.head? = some c := by
  simp

end ExcelService

namespace ExcelService

theorem not_prefix_lang (a b : Char) (x y : Str) (op : Char) (hab : a ≠ b) :
    ¬ ((a :: x) ++ [op]) <+: ((b :: y) ++ [op]) := by
  intro hp
  have h := prefix_head_eq _ _ a (by simp) hp
  simp at h
  exact hab h.symm

theorem suffix_lang_excl (s : Str) (op cl : Char) (l1 l2 : Str)
    (c1 c2 : Char) (x1 x2 : Str) (h1 : l1.reverse = c1 :: x1) (h2 : l2.reverse = c2 :: x2)
    (hcc : c1 ≠ c2) (hu : (op :: l1 ++ [cl]) <:+ s) : ¬ (op :: l2 ++ [cl]) <:+ s := by
  have e1 : (op :: l1 ++ [cl]).reverse = cl :: ((c1 :: x1) ++ [op]) := by
    simp [h1]
  have e2 : (op :: l2 ++ [cl]).reverse = cl :: ((c2 :: x2) ++ [op]) := by
    simp [h2]
  refine suffix_excl s _ _ ?_ ?_ hu
  · rw [e1, e2, List.cons_prefix_cons]
    rintro ⟨-, hp⟩
    exact not_prefix_lang c1 c2 x1 x2 op hcc hp
  · rw [e1, e2, List.cons_prefix_cons]
    rintro ⟨-, hp⟩
    exact not_prefix_lang c2 c1 x2 x1 op (fun e => hcc e.symm) hp

theorem matchLangShape_arae (s t : Str) (op cl : Char) (hne : t ≠ [])
    (hs : s = t ++ (op :: ("ar-ae").data ++ [cl])) :
    matchLangShape s op cl = some (jsTrim t, ("ar-ae").data) := by
  unfold matchLangShape
  rw [trySuffix_some s t op cl _ hne hs]
  rfl

theorem matchLangShape_en (s t : Str) (op cl : Char) (hne : t ≠ [])
    (hs : s = t ++ (op :: ("en").data ++ [cl])) :
    matchLangShape s op cl = some (jsTrim t, ("en").data) := by
  have hu : (op :: ("en").data ++ [cl]) <:+ s := ⟨t, hs.symm⟩
  have hno : ¬ (op :: ("ar-ae").data ++ [cl]) <:+ s :=
    suffix_lang_excl s op cl (("en").data) (("ar-ae").data) 'n' 'e' (['e'])
      (['a', '-', 'r', 'a']) (by decide) (by decide) (by decide) hu
  unfold matchLangShape
  rw [trySuffix_none s op cl _ hno, trySuffix_some s t op cl _ hne hs]
  rfl

theorem matchLangShape_ar (s t : Str) (op cl : Char) (hne : t ≠ [])
    (hs : s = t ++ (op :: ("ar").data ++ [cl])) :
    matchLangShape s op cl = some (jsTrim t, ("ar").data) := by
  have hu : (op :: ("ar").data ++ [cl]) <:+ s := ⟨t, hs.symm⟩
  have hno1 : ¬ (op :: ("ar-ae").data ++ [cl]) <:+ s :=
    suffix_lang_excl s op cl (("ar").data) (("ar-ae").data) 'r' 'e' (['a'])
      (['a', '-', 'r', 'a']) (by decide) (by decide) (by decide) hu
  have hno2 : ¬ (op :: ("en").data ++ [cl]) <:+ s :=
    suffix_lang_excl s op cl (("ar").data) (("en").data) 'r' 'n' (['a'])
      (['e']) (by decide) (by decide) (by decide) hu
  unfold matchLangShape
  rw [trySuffix_none s op cl _ hno1, trySuffix_none s op cl _ hno2,
    trySuffix_some s t op cl _ hne hs]
  rfl

theorem matchLangShape_none_of_last (s : Str) (op cl : Char) (c : Char)
    (hsr : s.reverse.head? = some c) (hne : cl ≠ c) :
    matchLangShape s op cl = none := by
  have h : ∀ l : Str, trySuffix s op cl l = none := by
    intro l
    apply trySuffix_none
    exact not_suffix_of_last_ne _ _ c cl (snoc_reverse_head (op :: l) cl) hsr hne
  unfold matchLangShape
  rw [h, h, h]
  rfl

end ExcelService

namespace ExcelService

/-- C9: header-key normalization in normalizeRow (services/excelService.ts).
Part (a): a raw key whose lower-cased trimmed form is a non-empty trimmed
base `b`, optional whitespace, then a language suffix `(LANG)` or `[LANG]`
with LANG in {en, ar, ar-ae}, resolves `b` through the HEADER_MAPPINGS
alias table, and the Arabic suffix tag is appended exactly when LANG is an
Arabic variant. Part (b): a key matching neither bracket shape nor the
alias table passes through unchanged. Part (c): normalizeRow writes the row
value under the normalized key. -/
theorem claim_C9 :
    (∀ (key b sp l : Str) (op cl : Char),
      ((op, cl) = ('(', ')') ∨ (op, cl) = ('[', ']')) →
      (l = ("en").data ∨ l = ("ar").data ∨ l = ("ar-ae").data) →
      jsTrim b = b → b ≠ [] → (∀ c ∈ sp, isWsChar c = true) →
      jsTrim (jsToLower key) = (b ++ sp) ++ (op :: l ++ [cl]) →
      normalizeKey key =
        ((assocGet HEADER_MAPPINGS b).getD b) ++
          (if l = ("en").data then [] else arTag))
    ∧ (∀ key : Str,
        matchLangShape (jsTrim (jsToLower key)) '(' ')' = none →
        matchLangShape (jsTrim (jsToLower key)) '[' ']' = none →
        assocGet HEADER_MAPPINGS (jsTrim (jsToLower key)) = none →
        normalizeKey key = key)
    ∧ (∀ (key : Str) (v : JSVal),
        normalizeRow [(key, v)] = [(normalizeKey key, v)]) := by
  refine ⟨?_, ?_, ?_⟩
  · intro key b sp l op cl hshape hl hbt hbne hsp hs
    have hbsp : b ++ sp ≠ [] := by
      intro h
      exact hbne (List.append_eq_nil.mp h).1
    have htr : jsTrim (b ++ sp) = b := jsTrim_append_ws b sp hbt hbne hsp
    rcases hshape with h | h <;> (rw [Prod.mk.injEq] at h; obtain ⟨rfl, rfl⟩ := h)
    · rcases hl with rfl | rfl | rfl
      · have hms := matchLangShape_en (jsTrim (jsToLower key)) (b ++ sp) '(' ')' hbsp hs
        rw [htr] at hms
        simp only [normalizeKey]
        rw [hms]
        dsimp only
        rw [if_neg (by decide)]
        simp
      · have hms := matchLangShape_ar (jsTrim (jsToLower key)) (b ++ sp) '(' ')' hbsp hs
        rw [htr] at hms
        simp only [normalizeKey]
        rw [hms]
        dsimp only
        rw [if_pos (Or.inl rfl), if_neg (by decide)]
      · have hms := matchLangShape_arae (jsTrim (jsToLower key)) (b ++ sp) '(' ')' hbsp hs
        rw [htr] at hms
        simp only [normalizeKey]
        rw [hms]
        dsimp only
        rw [if_pos (Or.inr rfl), if_neg (by decide)]
    · have hlast : (jsTrim (jsToLower key)).reverse.head? = some ']' := by
        rw [hs]
        have hre : (b ++ sp) ++ ('[' :: l ++ [']']) = ((b ++ sp) ++ ('[' :: l)) ++ [']'] := by
          simp
        rw [hre]
        exact snoc_reverse_head _ ']'
      have hpn : matchLangShape (jsTrim (jsToLower key)) '(' ')' = none :=
        matchLangShape_none_of_last _ '(' ')' ']' hlast (by decide)
      rcases hl with rfl | rfl | rfl
      · have hms := matchLangShape_en (jsTrim (jsToLower key)) (b ++ sp) '[' ']' hbsp hs
        rw [htr] at hms
        simp only [normalizeKey]
        rw [hpn]
        dsimp only
        rw [hms]
        dsimp only
        rw [if_neg (by decide)]
        simp
      · have hms := matchLangShape_ar (jsTrim (jsToLower key)) (b ++ sp) '[' ']' hbsp hs
        rw [htr] at hms
        simp only [normalizeKey]
        rw [hpn]
        dsimp only
        rw [hms]
        dsimp only
        rw [if_pos (Or.inl rfl), if_neg (by decide)]
      · have hms := matchLangShape_arae (jsTrim (jsToLower key)) (b ++ sp) '[' ']' hbsp hs
        rw [htr] at hms
        simp only [normalizeKey]
        rw [hpn]
        dsimp only
        rw [hms]
        dsimp only
        rw [if_pos (Or.inr rfl), if_neg (by decide)]
  · intro key h1 h2 h3
    simp only [normalizeKey]
    rw [h1]
    dsimp only
    rw [h2]
    dsimp only
    rw [h3]
    rfl
  · intro key v
    rfl

/-- Witness for C9: the key NAME (AR) resolves through the alias table to
the Arabic name column, and an unknown key passes through unchanged. -/
theorem claim_C9_witness :
    (normalizeKey (("NAME (AR)").data) =
      ((assocGet HEADER_MAPPINGS (("name").data)).getD (("name").data)) ++
        (if (("ar").data : Str) = ("en").data then [] else arTag))
    ∧ normalizeKey (("Mystery Col").data) = ("Mystery Col").data := by
  constructor
  · exact claim_C9.1 (("NAME (AR)").data) (("name").data) ([' ']) (("ar").data) '(' ')'
      (Or.inl rfl) (Or.inr (Or.inl rfl)) (by decide) (by decide) (by decide) (by decide)
  · exact claim_C9.2.1 (("Mystery Col").data) (by decide) (by decide) (by decide)

end ExcelService

namespace ColumnUtils

/-- The Arabic column tag of services/columnUtils.ts. -/
def arTag : Str := ("[ar-ae]").data

/-- Set.add over Object.keys of one row: append each key not yet present. -/
def addCols (acc : List Str) (ks : List Str) : List Str :=
  ks.foldl (fun a k => if k ∈ a then a else a ++ [k]) acc

/-- All columns of all rows in first-seen order (the Set built by
orderColumnsCorrectly). -/
def allCols (data : List Rec) : List Str :=
  data.foldl (fun a row => addCols a (keysOf row)) []

/-- Column is an Arabic column: col.includes of the tag. -/
def isArCol (col : Str) : Bool := strContains arTag col

/-- Base key of an Arabic column: first tag occurrence removed, trimmed. -/
def baseKeyOf (col : Str) : Str := jsTrim (removeFirst arTag col)

/-- JavaScript Map.set: overwrite in place, else append. -/
def mapSet : List (Str × Str) → Str → Str → List (Str × Str)
  | [], k, v => [(k, v)]
  | p :: rest, k, v => if p.1 = k then (k, v) :: rest else p :: mapSet rest k v

/-- JavaScript Map.get. -/
def mapGet : List (Str × Str) → Str → Option Str
  | [], _ => none
  | p :: rest, k => if p.1 = k then some p.2 else mapGet rest k

/-- JavaScript Map.delete. -/
def mapDel : List (Str × Str) → Str → List (Str × Str)
  | [], _ => []
  | p :: rest, k => if p.1 = k then rest else p :: mapDel rest k

/-- Truthiness of a possibly-undefined string (Map.get result). -/
def optTruthy : Option Str → Bool
  | none => false
  | some s => !s.isEmpty

/-- The allCols.forEach split into base columns and the Arabic map. -/
def splitCols (cols : List Str) : List Str × List (Str × Str) :=
  cols.foldl (fun acc col =>
    if isArCol col then (acc.1, mapSet acc.2 (baseKeyOf col) col)
    else (acc.1 ++ [col], acc.2)) ([], [])

/-- One step of the baseCols.forEach emission loop: push the base, then if
arabicMap.get(base) or arabicMap.get(base.trim()) is truthy push it and
delete both keys. -/
def emitStep (acc : List Str × List (Str × Str)) (base : Str) :
    List Str × List (Str × Str) :=
  let arabic := if optTruthy (mapGet acc.2 base) then mapGet acc.2 base
                else mapGet acc.2 (jsTrim base)
  if optTruthy arabic then
    (acc.1 ++ [base, arabic.getD []],
     mapDel (mapDel acc.2 base) (jsTrim base))
  else (acc.1 ++ [base], acc.2)

/-- The orphan pass: remaining map values appended unless already present. -/
def addOrphans (o : List Str) (m : List (Str × Str)) : List Str :=
  m.foldl (fun acc p => if p.2 ∈ acc then acc else acc ++ [p.2]) o

/-- The full ordered column list computed from a column list. -/
def orderFromCols (cols : List Str) : List Str :=
  let s := splitCols cols
  let e := s.1.foldl emitStep ([], s.2)
  addOrphans e.1 e.2

/-- Row reindexing: copy the ordered columns present on the row, in order
(a column absent from the row is skipped). -/
def reindexRow (ordered : List Str) (row : Rec) : Rec :=
  ordered.foldl (fun nr col =>
    match objGet row col with
    | some v => objSet nr col v
    | none => nr) []

/-- orderColumnsCorrectly of services/columnUtils.ts. -/
def orderColumnsCorrectly (data : List Rec) : List Rec :=
  if data.isEmpty then data
  else data.map (reindexRow (orderFromCols (allCols data)))

end ColumnUtils

theorem keysOf_objSet_mem (r : Rec) (k : Str) (v : JSVal) (h : k ∈ keysOf r) :
    keysOf (objSet r k v) = keysOf r := by
  induction r with
  | nil => simp [keysOf] at h
  | cons p rest ih =>
    by_cases hp : p.1 = k
    · simp [objSet, hp, keysOf]
    · have hm : k ∈ keysOf rest := by
        rcases List.mem_cons.mp h with h1 | h1
        · exact absurd h1.symm hp
        · exact h1
      have h2 := ih hm
      simp only [keysOf, List.map_cons] at h2 ⊢
      rw [objSet, if_neg hp, List.map_cons, h2]

theorem keysOf_objSet_notmem (r : Rec) (k : Str) (v : JSVal) (h : k ∉ keysOf r) :
    keysOf (objSet r k v) = keysOf r ++ [k] := by
  induction r with
  | nil => simp [objSet, keysOf]
  | cons p rest ih =>
    have hp : ¬ p.1 = k := by
      intro e
      apply h
      show k ∈ p.1 :: keysOf rest
      rw [e]
      exact List.mem_cons_self k (keysOf rest)
    have hm : k ∉ keysOf rest := fun hc => h (List.mem_cons_of_mem p.1 hc)
    have h2 := ih hm
    simp only [keysOf, List.map_cons] at h2 ⊢
    rw [objSet, if_neg hp, List.map_cons, h2]
    rfl

namespace ColumnUtils

theorem reindex_fold_get (row : Rec) (ordered : List Str) (nr : Rec) (c : Str) :
    objGet (ordered.foldl (fun nr col =>
        match objGet row col with
        | some v => objSet nr col v
        | none => nr) nr) c =
      if c ∈ ordered ∧ (objGet row c).isSome then objGet row c else objGet nr c := by
  induction ordered generalizing nr with
  | nil => simp
  | cons a l ih =>
    rw [List.foldl_cons, ih]
    by_cases hac : c = a
    · subst hac
      cases hr : objGet row c with
      | none => simp [hr]
      | some v => simp [hr, objGet_objSet]
    · cases hr : objGet row a with
      | none =>
        by_cases hcl : c ∈ l
        · simp [hr, hcl, hac]
        · simp [hr, hcl, hac]
      | some v =>
        have : objGet (objSet nr a v) c = objGet nr c := by
          rw [objGet_objSet, if_neg hac]
        by_cases hcl : c ∈ l
        · simp [hr, hcl, hac, this]
        · simp [hr, hcl, hac, this]

theorem reindex_fold_keys (row : Rec) (ordered : List Str) (nr : Rec)
    (hnd : ordered.Nodup) (hdis : ∀ c ∈ ordered, c ∉ keysOf nr) :
    keysOf (ordered.foldl (fun nr col =>
        match objGet row col with
        | some v => objSet nr col v
        | none => nr) nr) =
      keysOf nr ++ ordered.filter (fun c => (objGet row c).isSome) := by
  induction ordered generalizing nr with
  | nil => simp
  | cons a l ih =>
    have hnd' : l.Nodup := (List.nodup_cons.mp hnd).2
    have hal : a ∉ l := (List.nodup_cons.mp hnd).1
    cases hr : objGet row a with
    | none =>
      simp only [List.foldl_cons, hr]
      rw [ih nr hnd' (fun c hc => hdis c (List.mem_cons_of_mem a hc))]
      simp [List.filter_cons, hr]
    | some v =>
      simp only [List.foldl_cons, hr]
      have hna : a ∉ keysOf nr := hdis a (List.mem_cons_self a l)
      have hks : keysOf (objSet nr a v) = keysOf nr ++ [a] :=
        keysOf_objSet_notmem nr a v hna
      have hdis' : ∀ c ∈ l, c ∉ keysOf (objSet nr a v) := by
        intro c hc
        rw [hks]
        intro hmem
        rcases List.mem_append.mp hmem with h1 | h1
        · exact hdis c (List.mem_cons_of_mem a hc) h1
        · have hca : c = a := by simpa using h1
          exact hal (hca ▸ hc)
      rw [ih (objSet nr a v) hnd' hdis', hks, List.filter_cons]
      simp [hr]

end ColumnUtils

namespace ColumnUtils

/-- Two-row dataset where the second row lacks column B. -/
def cexData2 : List Rec :=
  [[((("A").data), JSVal.vstr (("x").data)), ((("B").data), JSVal.vstr (("y").data))],
   [((("A").data), JSVal.vstr (("z").data))]]

/-- C2 counterexample: orderColumnsCorrectly computes the ordered column
list [A, B], yet the second output row omits column B entirely (its lookup
is undefined, not the empty string), so output rows do not all carry the
computed column list. -/
theorem claim_C2_counterexample :
    orderFromCols (allCols cexData2) = [(("A").data), (("B").data)]
    ∧ (orderColumnsCorrectly cexData2).map keysOf =
        [[(("A").data), (("B").data)], [(("A").data)]]
    ∧ objGet ((orderColumnsCorrectly cexData2).getD 1 []) (("B").data) = none := by
  decide

/-- C2 amended: the reindexing step of orderColumnsCorrectly
(services/columnUtils.ts) copies only the ordered columns that exist on the
input row: every output row is the input row restricted to the ordered
columns, and a column absent from an input row is likewise absent from the
output row (never filled with an empty string). -/
theorem claim_C2_amended :
    (∀ (data : List Rec), data ≠ [] →
      orderColumnsCorrectly data =
        data.map (reindexRow (orderFromCols (allCols data))))
    ∧ (∀ (ordered : List Str) (row : Rec) (c : Str),
      objGet (reindexRow ordered row) c =
        if c ∈ ordered ∧ (objGet row c).isSome then objGet row c else none)
    ∧ (∀ (ordered : List Str) (row : Rec), ordered.Nodup →
      keysOf (reindexRow ordered row) =
        ordered.filter (fun c => (objGet row c).isSome)) := by
  refine ⟨?_, ?_, ?_⟩
  · intro data h
    cases data with
    | nil => exact absurd rfl h
    | cons a l => rfl
  · intro ordered row c
    exact reindex_fold_get row ordered [] c
  · intro ordered row hnd
    exact reindex_fold_keys row ordered [] hnd (fun c _ hc => by simp [keysOf] at hc)

/-- Witness for the amended C2 on the counterexample's second row: the
lookup of the missing column is undefined and the key set is just [A]. -/
theorem claim_C2_witness :
    objGet (reindexRow [(("A").data), (("B").data)]
        [((("A").data), JSVal.vstr (("z").data))]) (("B").data) = none
    ∧ keysOf (reindexRow [(("A").data), (("B").data)]
        [((("A").data), JSVal.vstr (("z").data))]) = [(("A").data)] := by
  constructor
  · exact (claim_C2_amended.2.1 [(("A").data), (("B").data)]
      [((("A").data), JSVal.vstr (("z").data))] (("B").data)).trans (by decide)
  · exact (claim_C2_amended.2.2 [(("A").data), (("B").data)]
      [((("A").data), JSVal.vstr (("z").data))] (by decide)).trans (by decide)

end ColumnUtils

theorem dropWhile_idem (p : Char → Bool) (l : Str) :
    (l.dropWhile p).dropWhile p = l.dropWhile p := by
  induction l with
  | nil => rfl
  | cons a t ih =>
    by_cases hpa : p a = true
    · simp [List.dropWhile_cons, hpa, ih]
    · simp [List.dropWhile_cons, hpa]

theorem trimLeft_idem (s : Str) : trimLeftStr (trimLeftStr s) = trimLeftStr s :=
  dropWhile_idem isWsChar s

theorem trimRight_idem (s : Str) : trimRightStr (trimRightStr s) = trimRightStr s := by
  unfold trimRightStr
  rw [List.reverse_reverse, dropWhile_idem]

theorem trimLeft_of_trimRight (x : Str) (h : trimLeftStr x = x) :
    trimLeftStr (trimRightStr x) = trimRightStr x := by
  cases htr : trimRightStr x with
  | nil => rfl
  | cons c t =>
    have hpre : trimRightStr x <+: x := by
      rw [trimRight_eq_rdrop]
      exact List.rdropWhile_prefix isWsChar x
    rw [htr] at hpre
    have hhd : x.head? = some c := prefix_head_eq (c :: t) x c rfl hpre
    cases x with
    | nil => simp at hhd
    | cons c0 t0 =>
      have hc0 : c0 = c := by
        simp only [List.head?] at hhd
        exact Option.some.inj hhd
      subst hc0
      have hnw : isWsChar c0 = false := head_not_ws_of_trimLeft c0 t0 h
      unfold trimLeftStr
      rw [List.dropWhile_cons, if_neg (by simp [hnw])]

theorem jsTrim_idem (s : Str) : jsTrim (jsTrim s) = jsTrim s := by
  unfold jsTrim
  rw [trimLeft_of_trimRight (trimLeftStr s) (trimLeft_idem s), trimRight_idem]

namespace ColumnUtils

/-- Keys of a map model. -/
def mapKeys (m : List (Str × Str)) : List Str := m.map (fun p => p.1)

theorem mapGet_mem (m : List (Str × Str)) (k : Str) (v : Str)
    (h : mapGet m k = some v) : (k, v) ∈ m := by
  induction m with
  | nil => simp [mapGet] at h
  | cons p rest ih =>
    rw [mapGet] at h
    by_cases hp : p.1 = k
    · rw [if_pos hp] at h
      have : p = (k, v) := by
        cases p
        simp at hp h ⊢
        exact ⟨hp, h⟩
      rw [this]
      exact List.mem_cons_self _ _
    · rw [if_neg hp] at h
      exact List.mem_cons_of_mem p (ih h)

theorem mapGet_none_iff (m : List (Str × Str)) (k : Str) :
    mapGet m k = none ↔ k ∉ mapKeys m := by
  induction m with
  | nil => simp [mapGet, mapKeys]
  | cons p rest ih =>
    rw [mapGet]
    by_cases hp : p.1 = k
    · rw [if_pos hp]
      simp [mapKeys, hp]
    · rw [if_neg hp]
      simp only [mapKeys, List.map_cons, List.mem_cons]
      constructor
      · intro h hc
        rcases hc with hc | hc
        · exact hp hc.symm
        · exact (ih.mp h) hc
      · intro h
        exact ih.mpr (fun hc => h (Or.inr hc))

theorem mem_mapGet (m : List (Str × Str)) (k : Str) (v : Str)
    (hnd : (mapKeys m).Nodup) (h : (k, v) ∈ m) : mapGet m k = some v := by
  induction m with
  | nil => simp at h
  | cons p rest ih =>
    rw [mapGet]
    rcases List.mem_cons.mp h with h1 | h1
    · rw [← h1]
      simp
    · have hk : k ∈ mapKeys rest := List.mem_map.mpr ⟨(k, v), h1, rfl⟩
      have hp : ¬ p.1 = k := by
        intro e
        exact (List.nodup_cons.mp hnd).1
          (by show p.1 ∈ mapKeys rest; rw [e]; exact hk)
      rw [if_neg hp]
      exact ih (List.nodup_cons.mp hnd).2 h1

theorem mapDel_not_mem (m : List (Str × Str)) (k : Str) (h : k ∉ mapKeys m) :
    mapDel m k = m := by
  induction m with
  | nil => rfl
  | cons p rest ih =>
    have hp : ¬ p.1 = k := fun e => h (by simp [mapKeys, e])
    have hr : k ∉ mapKeys rest := fun hc => h (by simp [mapKeys] at hc ⊢; tauto)
    rw [mapDel, if_neg hp, ih hr]

theorem mapDel_filter (m : List (Str × Str)) (k : Str)
    (hnd : (mapKeys m).Nodup) :
    mapDel m k = m.filter (fun p => decide (¬ p.1 = k)) := by
  induction m with
  | nil => rfl
  | cons p rest ih =>
    rcases List.nodup_cons.mp hnd with ⟨hp1, hp2⟩
    by_cases hp : p.1 = k
    · rw [mapDel, if_pos hp, List.filter_cons]
      rw [if_neg (by simp [hp])]
      have : k ∉ mapKeys rest := hp ▸ hp1
      rw [List.filter_eq_self.mpr]
      intro q hq
      simp only [decide_eq_true_eq]
      intro e
      exact this (e ▸ List.mem_map.mpr ⟨q, hq, rfl⟩)
    · rw [mapDel, if_neg hp, List.filter_cons, if_pos (by simp [hp]), ih hp2]

theorem mapGet_mapDel (m : List (Str × Str)) (k q : Str)
    (hnd : (mapKeys m).Nodup) :
    mapGet (mapDel m k) q = if q = k then none else mapGet m q := by
  induction m with
  | nil => simp [mapDel, mapGet]
  | cons p rest ih =>
    rcases List.nodup_cons.mp hnd with ⟨hp1, hp2⟩
    by_cases hp : p.1 = k
    · rw [mapDel, if_pos hp]
      by_cases hq : q = k
      · subst hq
        rw [if_pos rfl, (mapGet_none_iff rest q).mpr (hp ▸ hp1)]
      · rw [if_neg hq, mapGet, if_neg (fun e => hq (by rw [← e, hp]))]
    · rw [mapDel, if_neg hp, mapGet, mapGet]
      by_cases hpq : p.1 = q
      · rw [if_pos hpq, if_pos hpq, if_neg (fun e => hp (by rw [hpq, e]))]
      · rw [if_neg hpq, if_neg hpq, ih hp2]

end ColumnUtils

namespace ColumnUtils

/-- Map entries removed at the given keys. -/
def filterOut (m : List (Str × Str)) (ds : List Str) : List (Str × Str) :=
  m.filter (fun p => decide (p.1 ∉ ds))

/-- Map entries kept at the given keys. -/
def filterIn (m : List (Str × Str)) (ds : List Str) : List (Str × Str) :=
  m.filter (fun p => decide (p.1 ∈ ds))

/-- Well-formedness of the arabicMap: keys distinct, each entry keyed by the
trimmed base of its value, each value an Arabic, nonempty column name. -/
def goodMap (m : List (Str × Str)) : Prop :=
  (mapKeys m).Nodup ∧
  ∀ p ∈ m, p.1 = baseKeyOf p.2 ∧ isArCol p.2 = true ∧ p.2 ≠ []

theorem baseKeyOf_trimmed (v : Str) : jsTrim (baseKeyOf v) = baseKeyOf v :=
  jsTrim_idem (removeFirst arTag v)

theorem goodKey_trim (m : List (Str × Str)) (k v : Str)
    (hg : goodMap m) (h : (k, v) ∈ m) : jsTrim k = k := by
  have h1 : k = baseKeyOf v := (hg.2 (k, v) h).1
  rw [h1]
  exact baseKeyOf_trimmed v

theorem goodMap_filter (m : List (Str × Str)) (f : Str × Str → Bool)
    (hg : goodMap m) : goodMap (m.filter f) := by
  constructor
  · exact List.Nodup.sublist (List.Sublist.map _ (List.filter_sublist m)) hg.1
  · intro p hp
    exact hg.2 p (List.mem_of_mem_filter hp)

theorem filterOut_nil (m : List (Str × Str)) : filterOut m [] = m := by
  unfold filterOut
  rw [List.filter_eq_self.mpr]
  intro p _
  simp

theorem filterIn_nil (m : List (Str × Str)) : filterIn m [] = [] := by
  unfold filterIn
  rw [List.filter_eq_nil_iff.mpr]
  intro p _
  simp

theorem filterOut_cons (m : List (Str × Str)) (k : Str) (ds : List Str) :
    filterOut (m.filter (fun p => decide (¬ p.1 = k))) ds = filterOut m (k :: ds) := by
  unfold filterOut
  rw [List.filter_filter]
  apply List.filter_congr
  intro p _
  by_cases h1 : p.1 = k <;> by_cases h2 : p.1 ∈ ds <;> simp [h1, h2]

theorem exists_split_of_mem (m : List (Str × Str)) (k : Str) (v : Str)
    (hnd : (mapKeys m).Nodup) (h : (k, v) ∈ m) :
    ∃ l1 l2, m = l1 ++ (k, v) :: l2 ∧ k ∉ mapKeys l1 ∧ k ∉ mapKeys l2 := by
  obtain ⟨l1, l2, hm⟩ := List.append_of_mem h
  refine ⟨l1, l2, hm, ?_, ?_⟩
  · intro hc
    rw [hm] at hnd
    unfold mapKeys at hnd
    rw [List.map_append, List.map_cons] at hnd
    have := (List.nodup_append.mp hnd).2.2
    exact this hc (List.mem_cons_self _ _)
  · intro hc
    rw [hm] at hnd
    unfold mapKeys at hnd
    rw [List.map_append, List.map_cons] at hnd
    have := (List.nodup_append.mp hnd).2.1
    exact (List.nodup_cons.mp this).1 hc

theorem filter_ne_split (l1 l2 : List (Str × Str)) (k : Str) (v : Str)
    (h1 : k ∉ mapKeys l1) (h2 : k ∉ mapKeys l2) :
    (l1 ++ (k, v) :: l2).filter (fun p => decide (¬ p.1 = k)) = l1 ++ l2 := by
  rw [List.filter_append, List.filter_cons]
  rw [if_neg (by simp)]
  rw [List.filter_eq_self.mpr, List.filter_eq_self.mpr]
  · intro p hp
    simp only [decide_eq_true_eq]
    intro e
    exact h2 (e ▸ List.mem_map.mpr ⟨p, hp, rfl⟩)
  · intro p hp
    simp only [decide_eq_true_eq]
    intro e
    exact h1 (e ▸ List.mem_map.mpr ⟨p, hp, rfl⟩)

theorem filterIn_cons_split (m : List (Str × Str)) (k : Str) (v : Str) (ds : List Str)
    (hnd : (mapKeys m).Nodup) (h : (k, v) ∈ m) :
    (filterIn m (k :: ds)).Perm
      ((k, v) :: filterIn (m.filter (fun p => decide (¬ p.1 = k))) ds) := by
  obtain ⟨l1, l2, hm, hk1, hk2⟩ := exists_split_of_mem m k v hnd h
  subst hm
  rw [filter_ne_split l1 l2 k v hk1 hk2]
  unfold filterIn
  rw [List.filter_append, List.filter_cons, if_pos (by simp), List.filter_append]
  have e1 : l1.filter (fun p => decide (p.1 ∈ k :: ds)) = l1.filter (fun p => decide (p.1 ∈ ds)) := by
    apply List.filter_congr
    intro p hp
    have : ¬ p.1 = k := fun e => hk1 (e ▸ List.mem_map.mpr ⟨p, hp, rfl⟩)
    simp [List.mem_cons, this]
  have e2 : l2.filter (fun p => decide (p.1 ∈ k :: ds)) = l2.filter (fun p => decide (p.1 ∈ ds)) := by
    apply List.filter_congr
    intro p hp
    have : ¬ p.1 = k := fun e => hk2 (e ▸ List.mem_map.mpr ⟨p, hp, rfl⟩)
    simp [List.mem_cons, this]
  rw [e1, e2]
  exact List.perm_middle

end ColumnUtils

namespace ColumnUtils

theorem notmem_keys_filter_ne (m : List (Str × Str)) (b : Str) :
    b ∉ mapKeys (m.filter (fun p => decide (¬ p.1 = b))) := by
  intro hc
  obtain ⟨p, hp, he⟩ := List.mem_map.mp hc
  have h1 := List.of_mem_filter hp
  simp only [decide_eq_true_eq] at h1
  exact h1 he

theorem emitStep_matched (o : List Str) (m : List (Str × Str)) (b k v : Str)
    (hg : goodMap m)
    (hk : (mapGet m b = some v ∧ k = b) ∨
          (mapGet m b = none ∧ mapGet m (jsTrim b) = some v ∧ k = jsTrim b)) :
    emitStep (o, m) b = (o ++ [b, v], m.filter (fun p => decide (¬ p.1 = k))) := by
  rcases hk with ⟨h1, rfl⟩ | ⟨h1, h2, rfl⟩
  · have hmem : (k, v) ∈ m := mapGet_mem m k v h1
    have hvne : v ≠ [] := (hg.2 (k, v) hmem).2.2
    have htr : optTruthy (some v) = true := by
      simp [optTruthy, List.isEmpty_iff, hvne]
    have hbtrim : jsTrim k = k := goodKey_trim m k v hg hmem
    have hdel1 : mapDel m k = m.filter (fun p => decide (¬ p.1 = k)) :=
      mapDel_filter m k hg.1
    simp only [emitStep, h1, htr, if_true, hbtrim, Option.getD_some, hdel1]
    rw [mapDel_not_mem _ k (notmem_keys_filter_ne m k)]
  · have hmem : (jsTrim b, v) ∈ m := mapGet_mem m (jsTrim b) v h2
    have hvne : v ≠ [] := (hg.2 (jsTrim b, v) hmem).2.2
    have htr : optTruthy (some v) = true := by
      simp [optTruthy, List.isEmpty_iff, hvne]
    have hfals : optTruthy (none : Option Str) = false := rfl
    have hdel0 : mapDel m b = m := mapDel_not_mem m b ((mapGet_none_iff m b).mp h1)
    have hdel1 : mapDel m (jsTrim b) = m.filter (fun p => decide (¬ p.1 = jsTrim b)) :=
      mapDel_filter m (jsTrim b) hg.1
    simp only [emitStep, h1, hfals, Bool.false_eq_true, if_false, h2, htr, if_true,
      Option.getD_some, hdel0, hdel1]

theorem emitStep_unmatched (o : List Str) (m : List (Str × Str)) (b : Str)
    (h1 : mapGet m b = none) (h2 : mapGet m (jsTrim b) = none) :
    emitStep (o, m) b = (o ++ [b], m) := by
  have hfals : optTruthy (none : Option Str) = false := rfl
  simp only [emitStep, h1, h2, hfals, Bool.false_eq_true, if_false]

end ColumnUtils

namespace ColumnUtils

theorem emit_master (bases : List Str) :
    ∀ (o o' : List Str) (m m' : List (Str × Str)),
      (∀ b ∈ bases, isArCol b = false) → goodMap m → goodMap m' →
      (∀ q, mapGet m q = mapGet m' q) →
      ∃ (push ds : List Str),
        List.foldl emitStep (o, m) bases = (o ++ push, filterOut m ds)
        ∧ List.foldl emitStep (o', m') bases = (o' ++ push, filterOut m' ds)
        ∧ push.filter (fun c => ! isArCol c) = bases
        ∧ (((push.filter (fun c => isArCol c)).map (fun v => (baseKeyOf v, v))).Perm
            (filterIn m ds)) := by
  induction bases with
  | nil =>
    intro o o' m m' hb hgm hgm' heq
    refine ⟨[], [], ?_, ?_, rfl, ?_⟩
    · simp [filterOut_nil]
    · simp [filterOut_nil]
    · rw [filterIn_nil]
      exact List.Perm.refl _
  | cons b rest ih =>
    intro o o' m m' hb hgm hgm' heq
    have hbb : isArCol b = false := hb b (List.mem_cons_self b rest)
    have hbrest : ∀ c ∈ rest, isArCol c = false :=
      fun c hc => hb c (List.mem_cons_of_mem b hc)
    cases hgb : mapGet m b with
    | some v =>
      have hdisj : (mapGet m b = some v ∧ b = b) ∨
          (mapGet m b = none ∧ mapGet m (jsTrim b) = some v ∧ b = jsTrim b) :=
        Or.inl ⟨hgb, rfl⟩
      have hdisj' : (mapGet m' b = some v ∧ b = b) ∨
          (mapGet m' b = none ∧ mapGet m' (jsTrim b) = some v ∧ b = jsTrim b) :=
        Or.inl ⟨(heq b).symm.trans hgb, rfl⟩
      have hmem : (b, v) ∈ m := mapGet_mem m b v hgb
      have hstep : emitStep (o, m) b =
          (o ++ [b, v], m.filter (fun p => decide (¬ p.1 = b))) := by
        have := emitStep_matched o m b b v hgm
        apply this
        rcases hdisj with ⟨h1, _⟩ | ⟨h1, h2, h3⟩
        · exact Or.inl ⟨h1, rfl⟩
        · exact Or.inr ⟨h1, h2, h3⟩
      have hstep' : emitStep (o', m') b =
          (o' ++ [b, v], m'.filter (fun p => decide (¬ p.1 = b))) := by
        have := emitStep_matched o' m' b b v hgm'
        apply this
        rcases hdisj' with ⟨h1, _⟩ | ⟨h1, h2, h3⟩
        · exact Or.inl ⟨h1, rfl⟩
        · exact Or.inr ⟨h1, h2, h3⟩
      have hg2 : goodMap (m.filter (fun p => decide (¬ p.1 = b))) :=
        goodMap_filter m _ hgm
      have hg2' : goodMap (m'.filter (fun p => decide (¬ p.1 = b))) :=
        goodMap_filter m' _ hgm'
      have hget2 : ∀ q, mapGet (m.filter (fun p => decide (¬ p.1 = b))) q =
          mapGet (m'.filter (fun p => decide (¬ p.1 = b))) q := by
        intro q
        rw [← mapDel_filter m b hgm.1, ← mapDel_filter m' b hgm'.1,
          mapGet_mapDel m b q hgm.1, mapGet_mapDel m' b q hgm'.1, heq q]
      obtain ⟨push', ds', ih1, ih2, ih3, ih4⟩ :=
        ih (o ++ [b, v]) (o' ++ [b, v]) _ _ hbrest hg2 hg2' hget2
      have hvar : isArCol v = true := (hgm.2 (b, v) hmem).2.1
      have hkey : baseKeyOf v = b := ((hgm.2 (b, v) hmem).1).symm
      refine ⟨b :: v :: push', b :: ds', ?_, ?_, ?_, ?_⟩
      · rw [List.foldl_cons, hstep, ih1, filterOut_cons]
        simp [List.append_assoc]
      · rw [List.foldl_cons, hstep', ih2, filterOut_cons]
        simp [List.append_assoc]
      · rw [List.filter_cons, if_pos (by simp [hbb]), List.filter_cons,
          if_neg (by simp [hvar]), ih3]
      · rw [List.filter_cons, if_neg (by simp [hbb]), List.filter_cons,
          if_pos (by simp [hvar]), List.map_cons, hkey]
        have hsplit := filterIn_cons_split m b v ds' hgm.1 hmem
        exact (List.Perm.cons (b, v) ih4).trans hsplit.symm
    | none =>
      cases hgjb : mapGet m (jsTrim b) with
      | some v =>
        have hmem : (jsTrim b, v) ∈ m := mapGet_mem m (jsTrim b) v hgjb
        have hstep : emitStep (o, m) b =
            (o ++ [b, v], m.filter (fun p => decide (¬ p.1 = jsTrim b))) :=
          emitStep_matched o m b (jsTrim b) v hgm (Or.inr ⟨hgb, hgjb, rfl⟩)
        have hstep' : emitStep (o', m') b =
            (o' ++ [b, v], m'.filter (fun p => decide (¬ p.1 = jsTrim b))) :=
          emitStep_matched o' m' b (jsTrim b) v hgm'
            (Or.inr ⟨(heq b).symm.trans hgb, (heq (jsTrim b)).symm.trans hgjb, rfl⟩)
        have hg2 : goodMap (m.filter (fun p => decide (¬ p.1 = jsTrim b))) :=
          goodMap_filter m _ hgm
        have hg2' : goodMap (m'.filter (fun p => decide (¬ p.1 = jsTrim b))) :=
          goodMap_filter m' _ hgm'
        have hget2 : ∀ q, mapGet (m.filter (fun p => decide (¬ p.1 = jsTrim b))) q =
            mapGet (m'.filter (fun p => decide (¬ p.1 = jsTrim b))) q := by
          intro q
          rw [← mapDel_filter m (jsTrim b) hgm.1, ← mapDel_filter m' (jsTrim b) hgm'.1,
            mapGet_mapDel m (jsTrim b) q hgm.1, mapGet_mapDel m' (jsTrim b) q hgm'.1,
            heq q]
        obtain ⟨push', ds', ih1, ih2, ih3, ih4⟩ :=
          ih (o ++ [b, v]) (o' ++ [b, v]) _ _ hbrest hg2 hg2' hget2
        have hvar : isArCol v = true := (hgm.2 (jsTrim b, v) hmem).2.1
        have hkey : baseKeyOf v = jsTrim b := ((hgm.2 (jsTrim b, v) hmem).1).symm
        refine ⟨b :: v :: push', jsTrim b :: ds', ?_, ?_, ?_, ?_⟩
        · rw [List.foldl_cons, hstep, ih1, filterOut_cons]
          simp [List.append_assoc]
        · rw [List.foldl_cons, hstep', ih2, filterOut_cons]
          simp [List.append_assoc]
        · rw [List.filter_cons, if_pos (by simp [hbb]), List.filter_cons,
            if_neg (by simp [hvar]), ih3]
        · rw [List.filter_cons, if_neg (by simp [hbb]), List.filter_cons,
            if_pos (by simp [hvar]), List.map_cons, hkey]
          have hsplit := filterIn_cons_split m (jsTrim b) v ds' hgm.1 hmem
          exact (List.Perm.cons (jsTrim b, v) ih4).trans hsplit.symm
      | none =>
        have hstep : emitStep (o, m) b = (o ++ [b], m) :=
          emitStep_unmatched o m b hgb hgjb
        have hstep' : emitStep (o', m') b = (o' ++ [b], m') :=
          emitStep_unmatched o' m' b ((heq b).symm.trans hgb)
            ((heq (jsTrim b)).symm.trans hgjb)
        obtain ⟨push', ds', ih1, ih2, ih3, ih4⟩ :=
          ih (o ++ [b]) (o' ++ [b]) m m' hbrest hgm hgm' heq
        refine ⟨b :: push', ds', ?_, ?_, ?_, ?_⟩
        · rw [List.foldl_cons, hstep, ih1]
          simp [List.append_assoc]
        · rw [List.foldl_cons, hstep', ih2]
          simp [List.append_assoc]
        · rw [List.filter_cons, if_pos (by simp [hbb]), ih3]
        · rw [List.filter_cons, if_neg (by simp [hbb])]
          exact ih4

end ColumnUtils

namespace ColumnUtils

/-- The arabicMap built from a stream of Arabic column names. -/
def mapOf (l : List Str) : List (Str × Str) :=
  l.foldl (fun m v => mapSet m (baseKeyOf v) v) []

theorem splitCols_fold (cols : List Str) : ∀ (bs : List Str) (m : List (Str × Str)),
    cols.foldl (fun acc col =>
      if isArCol col then (acc.1, mapSet acc.2 (baseKeyOf col) col)
      else (acc.1 ++ [col], acc.2)) (bs, m)
    = (bs ++ cols.filter (fun c => ! isArCol c),
       (cols.filter (fun c => isArCol c)).foldl
         (fun m v => mapSet m (baseKeyOf v) v) m) := by
  induction cols with
  | nil =>
    intro bs m
    simp
  | cons c rest ih =>
    intro bs m
    rw [List.foldl_cons]
    dsimp only
    by_cases hc : isArCol c = true
    · rw [if_pos hc, ih bs (mapSet m (baseKeyOf c) c)]
      rw [List.filter_cons, List.filter_cons]
      rw [if_neg (by simp [hc]), if_pos (by simp [hc]), List.foldl_cons]
    · have hc2 : isArCol c = false := by
        rcases Bool.eq_false_or_eq_true (isArCol c) with h | h
        · exact absurd h hc
        · exact h
      rw [if_neg (by simp [hc2]), ih (bs ++ [c]) m]
      rw [List.filter_cons, List.filter_cons]
      rw [if_pos (by simp [hc2]), if_neg (by simp [hc2]), List.append_assoc]
      rfl

theorem splitCols_eq (cols : List Str) :
    splitCols cols = (cols.filter (fun c => ! isArCol c),
      mapOf (cols.filter (fun c => isArCol c))) := by
  unfold splitCols mapOf
  exact splitCols_fold cols [] []

theorem mem_mapSet (m : List (Str × Str)) (k v : Str) (p : Str × Str)
    (h : p ∈ mapSet m k v) : p ∈ m ∨ p = (k, v) := by
  induction m with
  | nil =>
    simp [mapSet] at h
    exact Or.inr h
  | cons q rest ih =>
    rw [mapSet] at h
    by_cases hq : q.1 = k
    · rw [if_pos hq] at h
      rcases List.mem_cons.mp h with h1 | h1
      · exact Or.inr h1
      · exact Or.inl (List.mem_cons_of_mem q h1)
    · rw [if_neg hq] at h
      rcases List.mem_cons.mp h with h1 | h1
      · exact Or.inl (h1 ▸ List.mem_cons_self q rest)
      · rcases ih h1 with h2 | h2
        · exact Or.inl (List.mem_cons_of_mem q h2)
        · exact Or.inr h2

theorem mapKeys_mapSet_mem (m : List (Str × Str)) (k v : Str)
    (h : k ∈ mapKeys m) : mapKeys (mapSet m k v) = mapKeys m := by
  induction m with
  | nil => simp [mapKeys] at h
  | cons p rest ih =>
    by_cases hp : p.1 = k
    · rw [mapSet, if_pos hp]
      simp [mapKeys, hp]
    · have hm : k ∈ mapKeys rest := by
        rcases List.mem_cons.mp h with h1 | h1
        · exact absurd h1.symm hp
        · exact h1
      have h2 := ih hm
      simp only [mapKeys, List.map_cons] at h2 ⊢
      rw [mapSet, if_neg hp, List.map_cons, h2]

theorem mapSet_notmem (m : List (Str × Str)) (k v : Str)
    (h : k ∉ mapKeys m) : mapSet m k v = m ++ [(k, v)] := by
  induction m with
  | nil => rfl
  | cons p rest ih =>
    have hp : ¬ p.1 = k := by
      intro e
      apply h
      show k ∈ p.1 :: mapKeys rest
      rw [e]
      exact List.mem_cons_self _ _
    · have hm : k ∉ mapKeys rest := fun hc => h (List.mem_cons_of_mem p.1 hc)
      rw [mapSet, if_neg hp, ih hm]
      rfl

theorem goodMap_mapSet (m : List (Str × Str)) (v : Str)
    (hg : goodMap m) (har : isArCol v = true) :
    goodMap (mapSet m (baseKeyOf v) v) := by
  have hvne : v ≠ [] := by
    intro hv
    rw [hv] at har
    exact absurd har (by decide)
  constructor
  · by_cases hk : baseKeyOf v ∈ mapKeys m
    · rw [mapKeys_mapSet_mem m _ v hk]
      exact hg.1
    · rw [mapSet_notmem m _ v hk]
      unfold mapKeys
      rw [List.map_append]
      rw [List.nodup_append]
      refine ⟨hg.1, List.nodup_singleton _, ?_⟩
      intro x hx hx2
      simp at hx2
      exact hk (hx2 ▸ hx)
  · intro p hp
    rcases mem_mapSet m _ v p hp with h1 | h1
    · exact hg.2 p h1
    · rw [h1]
      exact ⟨rfl, har, hvne⟩

theorem goodMap_mapOf (l : List Str) (hl : ∀ v ∈ l, isArCol v = true) :
    goodMap (mapOf l) := by
  unfold mapOf
  have H : ∀ (l2 : List Str) (m : List (Str × Str)), goodMap m →
      (∀ v ∈ l2, isArCol v = true) →
      goodMap (l2.foldl (fun m v => mapSet m (baseKeyOf v) v) m) := by
    intro l2
    induction l2 with
    | nil => intro m hm _; exact hm
    | cons v rest ih =>
      intro m hm hl2
      rw [List.foldl_cons]
      exact ih (mapSet m (baseKeyOf v) v)
        (goodMap_mapSet m v hm (hl2 v (List.mem_cons_self v rest)))
        (fun w hw => hl2 w (List.mem_cons_of_mem v hw))
  exact H l [] ⟨List.nodup_nil, by intro p hp; simp at hp⟩ hl

end ColumnUtils

namespace ColumnUtils

theorem mapOf_fold_nodup (l : List Str) : ∀ (m : List (Str × Str)),
    (mapKeys m ++ l.map baseKeyOf).Nodup →
    l.foldl (fun m v => mapSet m (baseKeyOf v) v) m =
      m ++ l.map (fun v => (baseKeyOf v, v)) := by
  induction l with
  | nil =>
    intro m _
    simp
  | cons v rest ih =>
    intro m hnd
    rw [List.foldl_cons]
    have hknot : baseKeyOf v ∉ mapKeys m := by
      intro hc
      have hd := (List.nodup_append.mp hnd).2.2
      exact hd hc (by simp)
    rw [mapSet_notmem m _ v hknot]
    have hnd2 : (mapKeys (m ++ [(baseKeyOf v, v)]) ++ rest.map baseKeyOf).Nodup := by
      unfold mapKeys
      rw [List.map_append]
      have : ((m.map (fun p => p.1) ++ [baseKeyOf v]) ++ rest.map baseKeyOf).Perm
          (m.map (fun p => p.1) ++ (baseKeyOf v :: rest.map baseKeyOf)) := by
        rw [List.append_assoc]
        exact List.Perm.refl _
      refine this.nodup_iff.mpr ?_
      have := hnd
      unfold mapKeys at this
      simpa using this
    rw [ih (m ++ [(baseKeyOf v, v)]) hnd2]
    simp

theorem mapOf_nodupKeys_eq (l : List Str) (hnd : (l.map baseKeyOf).Nodup) :
    mapOf l = l.map (fun v => (baseKeyOf v, v)) := by
  unfold mapOf
  have := mapOf_fold_nodup l [] (by simpa [mapKeys] using hnd)
  simpa using this

theorem goodMap_tail (p : Str × Str) (rest : List (Str × Str))
    (hg : goodMap (p :: rest)) : goodMap rest :=
  ⟨(List.nodup_cons.mp hg.1).2, fun q hq => hg.2 q (List.mem_cons_of_mem p hq)⟩

theorem goodMap_values_nodup (m : List (Str × Str)) (hg : goodMap m) :
    (m.map (fun p => p.2)).Nodup := by
  induction m with
  | nil => exact List.nodup_nil
  | cons p rest ih =>
    rw [List.map_cons, List.nodup_cons]
    refine ⟨?_, ih (goodMap_tail p rest hg)⟩
    intro hc
    obtain ⟨q, hq, he⟩ := List.mem_map.mp hc
    have hq1 : q.1 = baseKeyOf q.2 := (hg.2 q (List.mem_cons_of_mem p hq)).1
    have hp1 : p.1 = baseKeyOf p.2 := (hg.2 p (List.mem_cons_self p rest)).1
    have : q.1 = p.1 := by rw [hq1, hp1, he]
    apply (List.nodup_cons.mp hg.1).1
    show p.1 ∈ mapKeys rest
    rw [← this]
    exact List.mem_map.mpr ⟨q, hq, rfl⟩

theorem mapGet_eq_of_perm (m1 m2 : List (Str × Str)) (h : m1.Perm m2)
    (hnd : (mapKeys m1).Nodup) (k : Str) : mapGet m1 k = mapGet m2 k := by
  have hper : (m1.map (fun p => p.1)).Perm (m2.map (fun p => p.1)) :=
    h.map (fun p => p.1)
  have hnd2 : (mapKeys m2).Nodup := hper.nodup_iff.mp hnd
  cases hg : mapGet m1 k with
  | some v =>
    have : (k, v) ∈ m2 := h.mem_iff.mp (mapGet_mem m1 k v hg)
    rw [mem_mapGet m2 k v hnd2 this]
  | none =>
    have hk : k ∉ mapKeys m1 := (mapGet_none_iff m1 k).mp hg
    have hk2 : k ∉ mapKeys m2 := by
      intro hc
      exact hk (hper.mem_iff.mpr hc)
    rw [(mapGet_none_iff m2 k).mpr hk2]

theorem addOrphans_all (m : List (Str × Str)) : ∀ (o : List Str),
    (∀ v ∈ m.map (fun p => p.2), v ∉ o) → (m.map (fun p => p.2)).Nodup →
    addOrphans o m = o ++ m.map (fun p => p.2) := by
  induction m with
  | nil =>
    intro o _ _
    simp [addOrphans]
  | cons p rest ih =>
    intro o hno hnd
    have hp : p.2 ∉ o := hno p.2 (by simp)
    unfold addOrphans
    rw [List.foldl_cons]
    rw [if_neg hp]
    have h2 := ih (o ++ [p.2]) ?_ ?_
    · unfold addOrphans at h2
      rw [h2]
      simp
    · intro v hv hc
      rcases List.mem_append.mp hc with h3 | h3
      · exact hno v (List.mem_cons_of_mem _ hv) h3
      · have : v = p.2 := by simpa using h3
        rw [List.map_cons, List.nodup_cons] at hnd
        exact hnd.1 (this ▸ hv)
    · rw [List.map_cons, List.nodup_cons] at hnd
      exact hnd.2

theorem addCols_nodup (ks : List Str) : ∀ (a : List Str),
    a.Nodup → (addCols a ks).Nodup := by
  induction ks with
  | nil =>
    intro a ha
    exact ha
  | cons k rest ih =>
    intro a ha
    unfold addCols
    rw [List.foldl_cons]
    by_cases hk : k ∈ a
    · rw [if_pos hk]
      exact ih a ha
    · rw [if_neg hk]
      apply ih
      rw [List.nodup_append]
      refine ⟨ha, List.nodup_singleton _, ?_⟩
      intro x hx hx2
      have : x = k := by simpa using hx2
      exact hk (this ▸ hx)

theorem allCols_nodup (data : List Rec) : (allCols data).Nodup := by
  unfold allCols
  have H : ∀ (ds : List Rec) (a : List Str), a.Nodup →
      (ds.foldl (fun a row => addCols a (keysOf row)) a).Nodup := by
    intro ds
    induction ds with
    | nil => intro a ha; exact ha
    | cons r rest ih =>
      intro a ha
      rw [List.foldl_cons]
      exact ih (addCols a (keysOf r)) (addCols_nodup (keysOf r) a ha)
  exact H data [] List.nodup_nil

end ColumnUtils

namespace ColumnUtils

theorem filterInOut_perm (m : List (Str × Str)) (ds : List Str) :
    (filterIn m ds ++ filterOut m ds).Perm m := by
  have e : filterOut m ds = m.filter (fun p => ! (decide (p.1 ∈ ds))) := by
    unfold filterOut
    apply List.filter_congr
    intro p _
    rw [decide_not]
  rw [e]
  exact List.filter_append_perm (fun p => decide (p.1 ∈ ds)) m

theorem orderFromCols_idem (cols : List Str) :
    orderFromCols (orderFromCols cols) = orderFromCols cols := by
  have hg0 : goodMap (mapOf (cols.filter (fun c => isArCol c))) :=
    goodMap_mapOf _ (fun v hv => List.of_mem_filter hv)
  have hBn : ∀ b ∈ cols.filter (fun c => ! isArCol c), isArCol b = false := by
    intro b hb
    have := List.of_mem_filter hb
    simpa using this
  obtain ⟨push, ds, h1, h2, h3, h4⟩ :=
    emit_master (cols.filter (fun c => ! isArCol c)) [] []
      (mapOf (cols.filter (fun c => isArCol c)))
      (mapOf (cols.filter (fun c => isArCol c)))
      hBn hg0 hg0 (fun _ => rfl)
  have hgF : goodMap (filterOut (mapOf (cols.filter (fun c => isArCol c))) ds) :=
    goodMap_filter _ _ hg0
  have hvnotin : ∀ v ∈ (filterOut (mapOf (cols.filter (fun c => isArCol c))) ds).map
      (fun p => p.2), v ∉ push := by
    intro v hv hvp
    obtain ⟨p, hpF, hpv⟩ := List.mem_map.mp hv
    have hpm := List.mem_filter.mp hpF
    have hpds : p.1 ∉ ds := by simpa using hpm.2
    have harv : isArCol v = true := by
      have := (hg0.2 p hpm.1).2.1
      rw [hpv] at this
      exact this
    have hvf : v ∈ push.filter (fun c => isArCol c) :=
      List.mem_filter.mpr ⟨hvp, by simpa using harv⟩
    have hin : (baseKeyOf v, v) ∈
        filterIn (mapOf (cols.filter (fun c => isArCol c))) ds :=
      h4.mem_iff.mp (List.mem_map.mpr ⟨v, hvf, rfl⟩)
    have hkds : baseKeyOf v ∈ ds := by
      have h6 := List.mem_filter.mp hin
      simpa using h6.2
    have hp1 : p.1 = baseKeyOf v := by
      have := (hg0.2 p hpm.1).1
      rw [this, hpv]
    exact hpds (hp1 ▸ hkds)
  have hFnodup : ((filterOut (mapOf (cols.filter (fun c => isArCol c))) ds).map
      (fun p => p.2)).Nodup := goodMap_values_nodup _ hgF
  have hord : orderFromCols cols =
      push ++ (filterOut (mapOf (cols.filter (fun c => isArCol c))) ds).map
        (fun p => p.2) := by
    simp only [orderFromCols, splitCols_eq cols]
    rw [h1]
    show addOrphans ([] ++ push) _ = _
    rw [List.nil_append]
    exact addOrphans_all _ push hvnotin hFnodup
  have harF : ∀ v ∈ (filterOut (mapOf (cols.filter (fun c => isArCol c))) ds).map
      (fun p => p.2), isArCol v = true := by
    intro v hv
    obtain ⟨p, hpF, hpv⟩ := List.mem_map.mp hv
    have := (hg0.2 p (List.mem_of_mem_filter hpF)).2.1
    rw [hpv] at this
    exact this
  have hsplit2a : ((push ++ (filterOut (mapOf (cols.filter (fun c => isArCol c)))
      ds).map (fun p => p.2)).filter (fun c => ! isArCol c)) =
      cols.filter (fun c => ! isArCol c) := by
    have hnil : ((filterOut (mapOf (cols.filter (fun c => isArCol c))) ds).map
        (fun p => p.2)).filter (fun c => ! isArCol c) = [] := by
      apply List.filter_eq_nil_iff.mpr
      intro v hv
      simp [harF v hv]
    rw [List.filter_append, h3, hnil, List.append_nil]
  have hsplit2b : ((push ++ (filterOut (mapOf (cols.filter (fun c => isArCol c)))
      ds).map (fun p => p.2)).filter (fun c => isArCol c)) =
      push.filter (fun c => isArCol c) ++
        (filterOut (mapOf (cols.filter (fun c => isArCol c))) ds).map
          (fun p => p.2) := by
    have hself : ((filterOut (mapOf (cols.filter (fun c => isArCol c))) ds).map
        (fun p => p.2)).filter (fun c => isArCol c) =
        (filterOut (mapOf (cols.filter (fun c => isArCol c))) ds).map
          (fun p => p.2) := by
      apply List.filter_eq_self.mpr
      intro v hv
      simpa using harF v hv
    rw [List.filter_append, hself]
  have e2 : ((filterOut (mapOf (cols.filter (fun c => isArCol c))) ds).map
      (fun p => p.2)).map baseKeyOf =
      mapKeys (filterOut (mapOf (cols.filter (fun c => isArCol c))) ds) := by
    unfold mapKeys
    rw [List.map_map]
    apply List.map_congr_left
    intro p hp
    exact ((hgF.2 p hp).1).symm
  have hkeysA2 : (((push.filter (fun c => isArCol c)) ++
      (filterOut (mapOf (cols.filter (fun c => isArCol c))) ds).map
        (fun p => p.2)).map baseKeyOf).Nodup := by
    rw [List.map_append, e2]
    have e1 : (push.filter (fun c => isArCol c)).map baseKeyOf =
        mapKeys ((push.filter (fun c => isArCol c)).map
          (fun v => (baseKeyOf v, v))) := by
      unfold mapKeys
      rw [List.map_map]
      rfl
    rw [e1]
    have hper : (mapKeys ((push.filter (fun c => isArCol c)).map
        (fun v => (baseKeyOf v, v))) ++
        mapKeys (filterOut (mapOf (cols.filter (fun c => isArCol c))) ds)).Perm
        (mapKeys (mapOf (cols.filter (fun c => isArCol c)))) := by
      unfold mapKeys
      rw [← List.map_append]
      refine List.Perm.map _ ?_
      exact (h4.append_right _).trans (filterInOut_perm _ ds)
    exact hper.nodup_iff.mpr hg0.1
  have hm0'' : mapOf ((push.filter (fun c => isArCol c)) ++
      (filterOut (mapOf (cols.filter (fun c => isArCol c))) ds).map
        (fun p => p.2)) =
      (push.filter (fun c => isArCol c)).map (fun v => (baseKeyOf v, v)) ++
        filterOut (mapOf (cols.filter (fun c => isArCol c))) ds := by
    rw [mapOf_nodupKeys_eq _ hkeysA2, List.map_append]
    congr 1
    rw [List.map_map]
    have hid : (filterOut (mapOf (cols.filter (fun c => isArCol c))) ds).map
        ((fun v => (baseKeyOf v, v)) ∘ fun p => p.2) =
        (filterOut (mapOf (cols.filter (fun c => isArCol c))) ds).map id := by
      apply List.map_congr_left
      intro p hp
      show (baseKeyOf p.2, p.2) = p
      have hk := (hgF.2 p hp).1
      rw [← hk]
    rw [hid, List.map_id]
  have hperm2 : ((push.filter (fun c => isArCol c)).map (fun v => (baseKeyOf v, v)) ++
      filterOut (mapOf (cols.filter (fun c => isArCol c))) ds).Perm
      (mapOf (cols.filter (fun c => isArCol c))) :=
    (h4.append_right _).trans (filterInOut_perm _ ds)
  have hg2 : goodMap ((push.filter (fun c => isArCol c)).map
      (fun v => (baseKeyOf v, v)) ++
      filterOut (mapOf (cols.filter (fun c => isArCol c))) ds) := by
    constructor
    · have hper3 : ((((push.filter (fun c => isArCol c)).map
          (fun v => (baseKeyOf v, v)) ++
          filterOut (mapOf (cols.filter (fun c => isArCol c))) ds).map
            (fun p => p.1)).Perm
          ((mapOf (cols.filter (fun c => isArCol c))).map (fun p => p.1))) :=
        hperm2.map (fun p => p.1)
      exact hper3.nodup_iff.mpr hg0.1
    · intro p hp
      exact hg0.2 p (hperm2.mem_iff.mp hp)
  have hgeteq : ∀ q, mapGet (mapOf (cols.filter (fun c => isArCol c))) q =
      mapGet ((push.filter (fun c => isArCol c)).map (fun v => (baseKeyOf v, v)) ++
        filterOut (mapOf (cols.filter (fun c => isArCol c))) ds) q :=
    fun q => mapGet_eq_of_perm _ _ hperm2.symm hg0.1 q
  obtain ⟨push2, ds2, g1, g2, g3, g4⟩ :=
    emit_master (cols.filter (fun c => ! isArCol c)) [] []
      (mapOf (cols.filter (fun c => isArCol c)))
      ((push.filter (fun c => isArCol c)).map (fun v => (baseKeyOf v, v)) ++
        filterOut (mapOf (cols.filter (fun c => isArCol c))) ds)
      hBn hg0 hg2 hgeteq
  have hpair := h1.symm.trans g1
  have hpush : push2 = push := by
    have := congrArg Prod.fst hpair
    simpa using this.symm
  have hmF2 : filterOut (mapOf (cols.filter (fun c => isArCol c))) ds2 =
      filterOut (mapOf (cols.filter (fun c => isArCol c))) ds :=
    (congrArg Prod.snd hpair).symm
  have hfO : filterOut ((push.filter (fun c => isArCol c)).map
      (fun v => (baseKeyOf v, v)) ++
      filterOut (mapOf (cols.filter (fun c => isArCol c))) ds) ds2 =
      filterOut (mapOf (cols.filter (fun c => isArCol c))) ds := by
    unfold filterOut
    rw [List.filter_append, List.filter_eq_nil_iff.mpr, List.filter_eq_self.mpr,
      List.nil_append]
    · intro p hp
      have hp2 : p ∈ filterOut (mapOf (cols.filter (fun c => isArCol c))) ds2 := by
        rw [hmF2]
        exact hp
      have := (List.mem_filter.mp hp2).2
      simpa using this
    · intro p hp
      have hp2 : p ∈ filterIn (mapOf (cols.filter (fun c => isArCol c))) ds2 := by
        apply g4.mem_iff.mp
        rw [hpush]
        exact hp
      have hds2 : p.1 ∈ ds2 := by
        have := (List.mem_filter.mp hp2).2
        simpa using this
      simp [hds2]
  rw [hord]
  simp only [orderFromCols, splitCols_eq]
  rw [hsplit2a, hsplit2b, hm0'', g2, hpush, hfO]
  show addOrphans ([] ++ push) _ = _
  rw [List.nil_append]
  exact addOrphans_all _ push hvnotin hFnodup

end ColumnUtils

namespace ColumnUtils

/-- Dataset of Arabic-tagged columns where the trimmed base keys collide. -/
def cexData7 : List Rec :=
  [[((("A [ar-ae]").data), JSVal.vstr (("x").data)),
    ((("B[ar-ae]").data), JSVal.vstr (("x").data))],
   [((("A[ar-ae]").data), JSVal.vstr (("x").data))],
   [((("A[ar-ae]").data), JSVal.vstr (("x").data)),
    ((("B[ar-ae]").data), JSVal.vstr (("x").data))]]

/-- C7 counterexample: running orderColumnsCorrectly a second time on its own
output changes the column order: the first pass synthesizes the order
A[ar-ae], B[ar-ae], but its output (where the overwritten column A [ar-ae]
has disappeared from row 1) makes the second pass collect the columns in the
order B[ar-ae], A[ar-ae], and the third row's columns come out reversed. -/
theorem claim_C7_counterexample :
    (orderColumnsCorrectly cexData7).map keysOf ≠
      (orderColumnsCorrectly (orderColumnsCorrectly cexData7)).map keysOf
    ∧ orderFromCols (allCols cexData7) = [(("A[ar-ae]").data), (("B[ar-ae]").data)]
    ∧ orderFromCols (allCols (orderColumnsCorrectly cexData7)) =
        [(("B[ar-ae]").data), (("A[ar-ae]").data)] := by
  decide

/-- C7 amended: the Column Order Synthesizer's order computation itself is
idempotent: re-synthesizing the order from an already synthesized column
list returns it unchanged, for every column list and in particular for the
column list collected from any dataset. The full dataset transformation is
not idempotent (see the counterexample) only because reindexing can drop
columns from rows, changing the column list the second run collects. -/
theorem claim_C7_amended :
    (∀ cols : List Str, orderFromCols (orderFromCols cols) = orderFromCols cols)
    ∧ (∀ data : List Rec,
        orderFromCols (orderFromCols (allCols data)) =
          orderFromCols (allCols data)) :=
  ⟨orderFromCols_idem, fun data => orderFromCols_idem (allCols data)⟩

/-- Witness for the amended C7 at a concrete bilingual column pair. -/
theorem claim_C7_witness :
    orderFromCols (orderFromCols [(("Name").data), (("Name[ar-ae]").data)]) =
      orderFromCols [(("Name").data), (("Name[ar-ae]").data)] :=
  claim_C7_amended.1 [(("Name").data), (("Name[ar-ae]").data)]

end ColumnUtils

namespace ColumnUtils

/-- Immediate adjacency of a column pair in an ordered column list. -/
def adjacentIn (a b : Str) : List Str → Bool
  | x :: y :: rest => (decide (x = a) && decide (y = b)) || adjacentIn a b (y :: rest)
  | _ => false

theorem adjacentIn_append (a b : Str) (l2 : List Str) : ∀ (l1 : List Str),
    adjacentIn a b (l1 ++ a :: b :: l2) = true := by
  intro l1
  induction l1 with
  | nil =>
    simp [adjacentIn]
  | cons c l1' ih =>
    rw [List.cons_append]
    cases hl : l1' ++ a :: b :: l2 with
    | nil => exact absurd hl (by simp)
    | cons y rest =>
      rw [adjacentIn, ← hl, ih, Bool.or_true]

theorem strContains_append_self (p x : Str) : strContains p (x ++ p) = true := by
  induction x with
  | nil =>
    rw [List.nil_append]
    cases p with
    | nil => rfl
    | cons c r =>
      simp only [strContains]
      simp [List.isPrefixOf_iff_prefix]
  | cons c x' ih =>
    rw [List.cons_append]
    simp only [strContains]
    rw [ih, Bool.or_true]

theorem arTag_len : arTag.length = 7 := by decide

theorem removeFirst_arTag_append (X : Str) (h : strContains arTag X = false) :
    removeFirst arTag (X ++ arTag) = X := by
  induction X with
  | nil =>
    rw [List.nil_append]
    decide
  | cons c X' ih =>
    have hnp : arTag.isPrefixOf (c :: X') = false ∧ strContains arTag X' = false := by
      simp only [strContains] at h
      exact Bool.or_eq_false_iff.mp h
    rw [List.cons_append]
    simp only [removeFirst]
    have hnotpre : ¬ arTag.isPrefixOf (c :: (X' ++ arTag)) = true := by
      intro hT
      have hpre : arTag <+: (c :: X') ++ arTag := by
        rw [List.cons_append]
        exact List.isPrefixOf_iff_prefix.mp hT
      have hsp : (c :: X') <+: (c :: X') ++ arTag := List.prefix_append _ _
      rcases List.prefix_or_prefix_of_prefix hsp hpre with hsX | hXs
      · by_cases hlen7 : (c :: X').length = arTag.length
        · have heq : (c :: X') = arTag := List.IsPrefix.eq_of_length hsX hlen7
          have : arTag.isPrefixOf (c :: X') = true := by
            rw [heq]
            simp [List.isPrefixOf_iff_prefix]
          rw [hnp.1] at this
          exact absurd this (by simp)
        · have hlt : (c :: X').length < arTag.length :=
            lt_of_le_of_ne (hsX.length_le) hlen7
          obtain ⟨t, ht⟩ := hsX
          have heq : arTag.take (c :: X').length = c :: X' := by
            rw [← ht, List.take_left]
          rw [← heq] at hpre
          have h7 : arTag.length = 7 := arTag_len
          obtain ⟨n, hn⟩ : ∃ n, (c :: X').length = n := ⟨_, rfl⟩
          rw [hn] at hpre hlt
          have hn1 : 1 ≤ n := by
            rw [← hn]
            simp [List.length_cons]
          have hn7 : n < 7 := by
            rw [h7] at hlt
            exact hlt
          interval_cases n <;> revert hpre <;> decide
      · have : arTag.isPrefixOf (c :: X') = true := List.isPrefixOf_iff_prefix.mpr hXs
        rw [hnp.1] at this
        exact absurd this (by simp)
    rw [if_neg hnotpre, ih hnp.2]

theorem isArCol_append (X : Str) : isArCol (X ++ arTag) = true :=
  strContains_append_self arTag X

theorem baseKeyOf_append (X : Str) (h : isArCol X = false) :
    baseKeyOf (X ++ arTag) = jsTrim X := by
  unfold baseKeyOf
  rw [removeFirst_arTag_append X h]

end ColumnUtils

namespace ColumnUtils

theorem mapGet_mapSet (m : List (Str × Str)) (k v q : Str) :
    mapGet (mapSet m k v) q = if q = k then some v else mapGet m q := by
  induction m with
  | nil =>
    by_cases h : q = k
    · subst h
      simp [mapSet, mapGet]
    · have h2 : ¬ k = q := fun e => h e.symm
      simp [mapSet, mapGet, h, h2]
  | cons p rest ih =>
    by_cases hp : p.1 = k
    · rw [mapSet, if_pos hp, mapGet]
      by_cases hq : q = k
      · subst hq
        rw [if_pos rfl, if_pos rfl]
      · rw [if_neg hq, if_neg (fun e => hq e.symm), mapGet,
          if_neg (fun e => hq (by rw [← e, hp]))]
    · rw [mapSet, if_neg hp, mapGet, mapGet]
      by_cases hpq : p.1 = q
      · rw [if_pos hpq, if_pos hpq, if_neg (fun e => hp (by rw [hpq, e]))]
      · rw [if_neg hpq, if_neg hpq, ih]

theorem mapGet_mapDel_ne (m : List (Str × Str)) (a k : Str) (h : a ≠ k) :
    mapGet (mapDel m a) k = mapGet m k := by
  induction m with
  | nil => rfl
  | cons p rest ih =>
    by_cases hp : p.1 = a
    · rw [mapDel, if_pos hp, mapGet, if_neg (fun e => h (by rw [← hp, e]))]
    · rw [mapDel, if_neg hp, mapGet, mapGet]
      by_cases hpq : p.1 = k
      · rw [if_pos hpq, if_pos hpq]
      · rw [if_neg hpq, if_neg hpq, ih]

theorem mapDel_sublist (m : List (Str × Str)) (k : Str) :
    (mapDel m k).Sublist m := by
  induction m with
  | nil => exact List.Sublist.refl _
  | cons p rest ih =>
    by_cases hp : p.1 = k
    · rw [mapDel, if_pos hp]
      exact List.sublist_cons_self p rest
    · rw [mapDel, if_neg hp]
      exact List.Sublist.cons₂ p ih

theorem goodMap_mapDel (m : List (Str × Str)) (k : Str) (hg : goodMap m) :
    goodMap (mapDel m k) := by
  constructor
  · exact List.Nodup.sublist (List.Sublist.map _ (mapDel_sublist m k)) hg.1
  · intro p hp
    exact hg.2 p ((mapDel_sublist m k).subset hp)

theorem emitStep_snd (acc : List Str × List (Str × Str)) (b : Str) :
    (emitStep acc b).2 = acc.2 ∨
    (emitStep acc b).2 = mapDel (mapDel acc.2 b) (jsTrim b) := by
  simp only [emitStep]
  split
  · right
    rfl
  · split
    · right
      rfl
    · left
      rfl

theorem emitStep_fst_append (acc : List Str × List (Str × Str)) (b : Str) :
    ∃ t, (emitStep acc b).1 = acc.1 ++ t := by
  simp only [emitStep]
  split
  · exact ⟨_, rfl⟩
  · split
    · exact ⟨_, rfl⟩
    · exact ⟨_, rfl⟩

theorem emit_fold_fst_append (bs : List Str) :
    ∀ (acc : List Str × List (Str × Str)),
      ∃ t, (List.foldl emitStep acc bs).1 = acc.1 ++ t := by
  induction bs with
  | nil =>
    intro acc
    exact ⟨[], by simp⟩
  | cons b rest ih =>
    intro acc
    obtain ⟨t1, h1⟩ := emitStep_fst_append acc b
    obtain ⟨t2, h2⟩ := ih (emitStep acc b)
    refine ⟨t1 ++ t2, ?_⟩
    rw [List.foldl_cons, h2, h1, List.append_assoc]

theorem emit_preserves_get (bs : List Str) :
    ∀ (acc : List Str × List (Str × Str)) (k : Str),
      (∀ b ∈ bs, ¬ b = k ∧ ¬ jsTrim b = k) →
      mapGet ((List.foldl emitStep acc bs).2) k = mapGet acc.2 k := by
  induction bs with
  | nil =>
    intro acc k _
    rfl
  | cons b rest ih =>
    intro acc k hb
    rw [List.foldl_cons]
    rw [ih (emitStep acc b) k (fun c hc => hb c (List.mem_cons_of_mem b hc))]
    rcases emitStep_snd acc b with h | h
    · rw [h]
    · rw [h, mapGet_mapDel_ne _ _ _ (hb b (List.mem_cons_self b rest)).2,
        mapGet_mapDel_ne _ _ _ (hb b (List.mem_cons_self b rest)).1]

theorem emit_preserves_good (bs : List Str) :
    ∀ (acc : List Str × List (Str × Str)),
      goodMap acc.2 → goodMap ((List.foldl emitStep acc bs).2) := by
  induction bs with
  | nil =>
    intro acc h
    exact h
  | cons b rest ih =>
    intro acc h
    rw [List.foldl_cons]
    apply ih
    rcases emitStep_snd acc b with h2 | h2
    · rw [h2]
      exact h
    · rw [h2]
      exact goodMap_mapDel _ _ (goodMap_mapDel _ _ h)

theorem addOrphans_shape (m : List (Str × Str)) :
    ∀ (o : List Str), ∃ t, addOrphans o m = o ++ t := by
  induction m with
  | nil =>
    intro o
    exact ⟨[], by simp [addOrphans]⟩
  | cons p rest ih =>
    intro o
    unfold addOrphans
    rw [List.foldl_cons]
    by_cases hp : p.2 ∈ o
    · rw [if_pos hp]
      exact ih o
    · rw [if_neg hp]
      obtain ⟨t, ht⟩ := ih (o ++ [p.2])
      refine ⟨[p.2] ++ t, ?_⟩
      unfold addOrphans at ht
      rw [ht, List.append_assoc]

theorem mapOf_fold_preserve (l : List Str) :
    ∀ (m : List (Str × Str)) (k : Str), (∀ w ∈ l, baseKeyOf w ≠ k) →
      mapGet (l.foldl (fun m v => mapSet m (baseKeyOf v) v) m) k = mapGet m k := by
  induction l with
  | nil =>
    intro m k _
    rfl
  | cons v rest ih =>
    intro m k hl
    rw [List.foldl_cons, ih _ k (fun w hw => hl w (List.mem_cons_of_mem v hw)),
      mapGet_mapSet, if_neg]
    intro e
    exact hl v (List.mem_cons_self v rest) e.symm

theorem mapOf_split_get (A1 A2 : List Str) (z : Str) (k : Str)
    (hz : baseKeyOf z = k) (h2 : ∀ w ∈ A2, baseKeyOf w ≠ k) :
    mapGet (mapOf (A1 ++ z :: A2)) k = some z := by
  unfold mapOf
  rw [List.foldl_append, List.foldl_cons, mapOf_fold_preserve A2 _ k h2,
    mapGet_mapSet, hz, if_pos rfl]

end ColumnUtils

namespace ColumnUtils

/-- One-row dataset whose two base columns share a trimmed name. -/
def cexData1 : List Rec :=
  [[((("Name ").data), JSVal.vstr (("a").data)),
    ((("Name").data), JSVal.vstr (("b").data)),
    ((("Name[ar-ae]").data), JSVal.vstr (("c").data))]]

/-- C1 counterexample: with base columns Name-with-trailing-space and Name,
the Arabic companion Name[ar-ae] is paired with the first base whose trim
matches, so the emitted order is [Name+space, Name[ar-ae], Name]: the base
column Name and its companion Name[ar-ae] are both present but the
companion does not immediately follow its base. -/
theorem claim_C1_counterexample :
    orderFromCols (allCols cexData1) =
      [(("Name ").data), (("Name[ar-ae]").data), (("Name").data)]
    ∧ (("Name").data) ∈ orderFromCols (allCols cexData1)
    ∧ (("Name").data) ++ arTag ∈ orderFromCols (allCols cexData1)
    ∧ adjacentIn (("Name").data) ((("Name").data) ++ arTag)
        (orderFromCols (allCols cexData1)) = false := by
  decide

/-- C1 amended: in the order emitted by orderColumnsCorrectly
(services/columnUtils.ts), an Arabic companion column X ++ tag immediately
follows its base column X provided no other base column shares X's trimmed
name and no other Arabic column strips and trims to X's base key. -/
theorem claim_C1_amended :
    ∀ (cols : List Str) (X : Str),
      cols.Nodup → X ∈ cols → isArCol X = false → X ++ arTag ∈ cols →
      (∀ Y ∈ cols, isArCol Y = false → Y ≠ X → jsTrim Y ≠ jsTrim X) →
      (∀ Z ∈ cols, isArCol Z = true → baseKeyOf Z = jsTrim X → Z = X ++ arTag) →
      adjacentIn X (X ++ arTag) (orderFromCols cols) = true := by
  intro cols X hnd hX harX hXar hbase huniq
  have hXB : X ∈ cols.filter (fun c => ! isArCol c) :=
    List.mem_filter.mpr ⟨hX, by simp [harX]⟩
  have hXarA : X ++ arTag ∈ cols.filter (fun c => isArCol c) :=
    List.mem_filter.mpr ⟨hXar, by simp [isArCol_append]⟩
  have hAnd : (cols.filter (fun c => isArCol c)).Nodup := hnd.filter _
  have hBnd : (cols.filter (fun c => ! isArCol c)).Nodup := hnd.filter _
  obtain ⟨A1, A2, hA⟩ := List.append_of_mem hXarA
  have hA2 : ∀ w ∈ A2, baseKeyOf w ≠ jsTrim X := by
    intro w hw hk
    have hwA : w ∈ cols.filter (fun c => isArCol c) := by
      rw [hA]
      exact List.mem_append.mpr (Or.inr (List.mem_cons_of_mem _ hw))
    have hwX : w = X ++ arTag :=
      huniq w (List.mem_of_mem_filter hwA) (List.of_mem_filter hwA) hk
    rw [hA] at hAnd
    have h5 := (List.nodup_append.mp hAnd).2.1
    exact (List.nodup_cons.mp h5).1 (hwX ▸ hw)
  have hget0 : mapGet (mapOf (cols.filter (fun c => isArCol c))) (jsTrim X) =
      some (X ++ arTag) := by
    rw [hA]
    exact mapOf_split_get A1 A2 _ _ (baseKeyOf_append X harX) hA2
  obtain ⟨B1, B2, hB⟩ := List.append_of_mem hXB
  have hXnotB1 : X ∉ B1 := by
    intro hc
    rw [hB] at hBnd
    have h5 := (List.nodup_append.mp hBnd).2.2
    exact h5 hc (List.mem_cons_self _ _)
  have hB1cond : ∀ b ∈ B1, ¬ b = jsTrim X ∧ ¬ jsTrim b = jsTrim X := by
    intro b hb
    have hbB : b ∈ cols.filter (fun c => ! isArCol c) := by
      rw [hB]
      exact List.mem_append.mpr (Or.inl hb)
    have hbar : isArCol b = false := by
      have := List.of_mem_filter hbB
      simpa using this
    have hbX : b ≠ X := fun e => hXnotB1 (e ▸ hb)
    have h2 : jsTrim b ≠ jsTrim X :=
      hbase b (List.mem_of_mem_filter hbB) hbar hbX
    refine ⟨?_, h2⟩
    intro e
    apply h2
    rw [e, jsTrim_idem]
  have hgood0 : goodMap (mapOf (cols.filter (fun c => isArCol c))) :=
    goodMap_mapOf _ (fun v hv => List.of_mem_filter hv)
  have hget1 : mapGet ((List.foldl emitStep
      ([], mapOf (cols.filter (fun c => isArCol c))) B1).2) (jsTrim X) =
      some (X ++ arTag) := by
    rw [emit_preserves_get B1 _ _ hB1cond]
    exact hget0
  have hgood1 : goodMap ((List.foldl emitStep
      ([], mapOf (cols.filter (fun c => isArCol c))) B1).2) :=
    emit_preserves_good B1 _ hgood0
  have hstepX : ∃ M2, emitStep (List.foldl emitStep
      ([], mapOf (cols.filter (fun c => isArCol c))) B1) X =
      ((List.foldl emitStep ([], mapOf (cols.filter (fun c => isArCol c))) B1).1
        ++ [X, X ++ arTag], M2) := by
    by_cases hXt : jsTrim X = X
    · rw [hXt] at hget1
      exact ⟨_, emitStep_matched _ _ X X (X ++ arTag) hgood1 (Or.inl ⟨hget1, rfl⟩)⟩
    · have hXnone : mapGet ((List.foldl emitStep
          ([], mapOf (cols.filter (fun c => isArCol c))) B1).2) X = none := by
        rw [mapGet_none_iff]
        intro hc
        obtain ⟨p, hp, he⟩ := List.mem_map.mp hc
        have h6 := goodKey_trim _ p.1 p.2 hgood1 hp
        rw [he] at h6
        exact hXt h6
      exact ⟨_, emitStep_matched _ _ X (jsTrim X) (X ++ arTag) hgood1
        (Or.inr ⟨hXnone, hget1, rfl⟩)⟩
  obtain ⟨M2, hstep⟩ := hstepX
  obtain ⟨t2, ht2⟩ := emit_fold_fst_append B2
    ((List.foldl emitStep ([], mapOf (cols.filter (fun c => isArCol c))) B1).1
      ++ [X, X ++ arTag], M2)
  have hfold : (List.foldl emitStep
      ([], mapOf (cols.filter (fun c => isArCol c)))
      (cols.filter (fun c => ! isArCol c))).1
      = ((List.foldl emitStep ([], mapOf (cols.filter (fun c => isArCol c))) B1).1
          ++ [X, X ++ arTag]) ++ t2 := by
    rw [hB, List.foldl_append, List.foldl_cons, hstep, ht2]
  obtain ⟨t3, ht3⟩ := addOrphans_shape
    ((List.foldl emitStep ([], mapOf (cols.filter (fun c => isArCol c)))
      (cols.filter (fun c => ! isArCol c))).2)
    ((List.foldl emitStep ([], mapOf (cols.filter (fun c => isArCol c)))
      (cols.filter (fun c => ! isArCol c))).1)
  simp only [orderFromCols, splitCols_eq]
  rw [ht3, hfold]
  have hshape : ((((List.foldl emitStep
      ([], mapOf (cols.filter (fun c => isArCol c))) B1).1
      ++ [X, X ++ arTag]) ++ t2) ++ t3) =
      (List.foldl emitStep ([], mapOf (cols.filter (fun c => isArCol c))) B1).1
        ++ (X :: (X ++ arTag) :: (t2 ++ t3)) := by
    simp [List.append_assoc]
  rw [hshape]
  exact adjacentIn_append X (X ++ arTag) (t2 ++ t3) _

/-- Witness for the amended C1: for the columns [Price, Name, Name[ar-ae]]
the companion is emitted immediately after Name. -/
theorem claim_C1_witness :
    adjacentIn (("Name").data) ((("Name").data) ++ arTag)
      (orderFromCols [(("Price").data), (("Name").data),
        (("Name").data) ++ arTag]) = true :=
  claim_C1_amended [(("Price").data), (("Name").data), (("Name").data) ++ arTag]
    (("Name").data) (by decide) (by decide) (by decide) (by decide)
    (by decide) (by decide)

end ColumnUtils
